import Mathlib

/-!
Verification of the elementool DOM helper library (src/index.js).

This file shallowly embeds the string-processing and state-transforming parts
of the library in Lean: JavaScript strings are `List Char` (wrapped in `String`
at the API boundary), JS objects with string keys are insertion-ordered
association lists, the regex subpatterns used by the source are translated to
explicit scanners with exactly the engine's first-match, lazy/greedy and
`lastIndex` semantics, and DOM side effects are explicit state passing.

Recursions that the source expresses as scanning loops are given a `Nat` fuel
argument equal to one plus the length of the scanned list; each loop iteration
consumes at least one character of the scanned list (or, for the placeholder
loop, removes at least one bracket character), so this fuel never runs out.
Stability lemmas (`..._stable`) record that any sufficient fuel computes the
same result.
-/

namespace Elementool

/-- Character class of the regex `\w` (ASCII word character). -/
def isWordCh (c : Char) : Bool :=
  c.isAlpha || c.isDigit || c = '_'

/-- Character class of the regex `[\w-]` used by the selector parser. -/
def isWordHyphen (c : Char) : Bool :=
  isWordCh c || c = '-'

/-- Characters matched by the regex `.` (anything but line terminators). -/
def isRegexAnyCh (c : Char) : Bool :=
  !(c = '\n' || c = '\r' || c = '\u2028' || c = '\u2029')

/-- Characters matched by the regex `['"]`. -/
def isQuoteCh (c : Char) : Bool :=
  c = '"' || c = '\''

/-- Whitespace removed by JavaScript `String.prototype.trim`. -/
def isJsWhitespace (c : Char) : Bool :=
  c = ' ' || c = '\t' || c = '\n' || c = '\r' || c = '\u000b' || c = '\u000c' ||
  c = '\u00a0' || c = '\u1680' ||
  ('\u2000' <= c && c <= '\u200a') ||
  c = '\u2028' || c = '\u2029' || c = '\u202f' || c = '\u205f' ||
  c = '\u3000' || c = '\ufeff'

/-- JavaScript `String.prototype.trim` on a character list. -/
def jsTrim (s : List Char) : List Char :=
  ((s.dropWhile isJsWhitespace).reverse.dropWhile isJsWhitespace).reverse

/-- JavaScript `String.prototype.replace(pat, repl)` with a string pattern:
replaces the first occurrence only.  An empty pattern matches at index 0. -/
def replaceFirst (pat repl : List Char) : List Char → List Char
  | [] => if pat = [] then repl else []
  | c :: t =>
    if pat = [] then repl ++ c :: t
    else if pat.isPrefixOf (c :: t) then repl ++ (c :: t).drop pat.length
    else c :: replaceFirst pat repl t

/-- Fueled core of `removeAll`: JavaScript `s.split(att).join("")`, i.e.
removal of every (left-to-right, non-overlapping) occurrence of `att`. -/
def removeAllF (att : List Char) : Nat → List Char → List Char
  | 0, s => s
  | _ + 1, [] => []
  | fuel + 1, c :: t =>
    if att ≠ [] ∧ att.isPrefixOf (c :: t) then
      removeAllF att fuel ((c :: t).drop att.length)
    else
      c :: removeAllF att fuel t

/-- JavaScript `s.split(att).join("")` (every occurrence of `att` removed). -/
def removeAll (att s : List Char) : List Char :=
  removeAllF att (s.length + 1) s

/-- JavaScript object assignment `m[k] = v` on an insertion-ordered
association list: an existing key keeps its position, a new key is appended. -/
def assignKV {α β : Type} [DecidableEq α] (m : List (α × β)) (k : α) (v : β) :
    List (α × β) :=
  match m with
  | [] => [(k, v)]
  | (k', v') :: t => if k' = k then (k', v) :: t else (k', v') :: assignKV t k v

/-- JavaScript property read `m[k]` on an association list. -/
def lookupKV {α β : Type} [DecidableEq α] (m : List (α × β)) (k : α) :
    Option β :=
  match m with
  | [] => none
  | (k', v') :: t => if k' = k then some v' else lookupKV t k

/-- Folding a sequence of JavaScript object assignments. -/
def foldAssign {α β : Type} [DecidableEq α] (m : List (α × β))
    (l : List (α × β)) : List (α × β) :=
  l.foldl (fun m kv => assignKV m kv.1 kv.2) m

/-- One match of the attribute regex
`\[([\w-]+)(?:=(?:['"](.+?)['"]|([^\]]+)))?\]` from
`util.selectorToComponents`: the whole matched text, capture group 1 (the
attribute name), and capture groups 2 (quoted value) and 3 (unquoted value),
`none` when the group did not participate. -/
structure AttrMatch where
  full : List Char
  name : List Char
  g2 : Option (List Char)
  g3 : Option (List Char)
deriving DecidableEq

/-- Lazy scan of `(.+?)['"]` followed by `\]`: consumes value characters one
at a time (each must be matched by `.`), closing at the earliest quote that is
immediately followed by `]`, with at least one value character consumed.
Returns the value, the closing quote character, and the rest of the input. -/
def scanQuoted (acc : List Char) : List Char → Option (List Char × Char × List Char)
  | c :: d :: rest =>
    if isQuoteCh c ∧ d = ']' ∧ acc ≠ [] then some (acc.reverse, c, rest)
    else if isRegexAnyCh c then scanQuoted (c :: acc) (d :: rest)
    else none
  | _ => none

/-- Attempt to match the attribute regex at the start of the input.  On
success returns the match and the input remaining after it.  The name run is
greedy; shortening it can never help (the character after a shorter run is a
word character, never `=` or `]`), so no backtracking into group 1 is needed. -/
def matchAttrHere (s : List Char) : Option (AttrMatch × List Char) :=
  match s with
  | [] => none
  | c :: t =>
    if c = '[' then
      let name := t.takeWhile isWordHyphen
      if name = [] then none
      else
        match t.dropWhile isWordHyphen with
        | [] => none
        | d :: r2 =>
          if d = '=' then
            let quoted :=
              match r2 with
              | q :: r3 =>
                if isQuoteCh q then
                  (scanQuoted [] r3).map fun (v, q2, rest) =>
                    (⟨'[' :: name ++ '=' :: q :: v ++ [q2, ']'], name, some v, none⟩, rest)
                else none
              | [] => none
            match quoted with
            | some res => some res
            | none =>
              let w := r2.takeWhile (fun c => c ≠ ']')
              if w = [] then none
              else
                match r2.dropWhile (fun c => c ≠ ']') with
                | ']' :: r5 =>
                  some (⟨'[' :: name ++ '=' :: w ++ [']'], name, none, some w⟩, r5)
                | _ => none
          else if d = ']' then
            some (⟨'[' :: name ++ [']'], name, none, none⟩, r2)
          else none
    else none

/-- First match of the attribute regex at or after the start of the input
(the regex engine advances the start position one character at a time). -/
def findAttrMatch : List Char → Option (AttrMatch × List Char)
  | [] => none
  | c :: t =>
    match matchAttrHere (c :: t) with
    | some res => some res
    | none => findAttrMatch t

/-- Fueled loop of `attributeRegex.exec` in `util.selectorToComponents`:
collects every match left to right (`lastIndex` advances to the end of each
match, and the subject string is not mutated during this loop). -/
def collectAttrsF : Nat → List Char → List AttrMatch
  | 0, _ => []
  | fuel + 1, s =>
    match findAttrMatch s with
    | none => []
    | some (m, rest) => m :: collectAttrsF fuel rest

/-- All matches of the attribute regex in a selector. -/
def collectAttrs (s : List Char) : List AttrMatch :=
  collectAttrsF (s.length + 1) s

/-- Group-2-or-group-3-or-empty: `attributeMatch[2] || attributeMatch[3] || ''`
(a captured group is `undefined` when it did not participate, and an empty
string is falsy). -/
def valueOfMatch (m : AttrMatch) : List Char :=
  match m.g2 with
  | some v => if v = [] then (match m.g3 with | some w => w | none => []) else v
  | none =>
    match m.g3 with
    | some w => w
    | none => []

/-- First match of the id regex `#([\w-]+)` (non-global, so only the first
match is ever used); returns capture group 1. -/
def findIdMatch : List Char → Option (List Char)
  | [] => none
  | c :: t =>
    if c = '#' then
      let run := t.takeWhile isWordHyphen
      if run = [] then findIdMatch t else some run
    else findIdMatch t

/-- Fueled loop of the global id regex `#([\w-]+)`: every match in order.
The source only keeps the first; this list form also supports stating which
occurrence wins. -/
def collectIdsF : Nat → List Char → List (List Char)
  | 0, _ => []
  | fuel + 1, s =>
    match s with
    | [] => []
    | c :: t =>
      if c = '#' then
        let run := t.takeWhile isWordHyphen
        if run = [] then collectIdsF fuel t
        else run :: collectIdsF fuel (t.drop run.length)
      else collectIdsF fuel t

/-- Every match of the id regex, in order. -/
def collectIds (s : List Char) : List (List Char) :=
  collectIdsF (s.length + 1) s

/-- Fueled loop of `classRegex.exec` with the global regex `\.([\w-]+)`:
collects capture group 1 of every match, `lastIndex` advancing to the end of
each match. -/
def collectClassesF : Nat → List Char → List (List Char)
  | 0, _ => []
  | fuel + 1, s =>
    match s with
    | [] => []
    | c :: t =>
      if c = '.' then
        let run := t.takeWhile isWordHyphen
        if run = [] then collectClassesF fuel t
        else run :: collectClassesF fuel (t.drop run.length)
      else collectClassesF fuel t

/-- Every class token of a selector, in order. -/
def collectClasses (s : List Char) : List (List Char) :=
  collectClassesF (s.length + 1) s

/-- Result object of `util.selectorToComponents`. -/
structure Components where
  tagName : String
  id : Option String
  classList : List String
  attributes : List (String × String)
deriving DecidableEq

/-- Attribute-regex matches of the selector (the first processing step of
`util.selectorToComponents`). -/
def attrMatchesOf (s : List Char) : List AttrMatch :=
  collectAttrs s

/-- The selector after `doneAttributes.forEach(att => selector =
selector.split(att).join(""))`: every matched attribute text removed. -/
def strippedOf (s : List Char) : List Char :=
  (attrMatchesOf s).foldl (fun acc m => removeAll m.full acc) s

/-- The match of `^[\w-]+` on the attribute-stripped selector (empty list
when the regex does not match). -/
def tagRunOf (s : List Char) : List Char :=
  (strippedOf s).takeWhile isWordHyphen

/-- The selector after the tag-name match has been removed with
`selector.replace(tagNameMatch[0], '')` (no removal when there is no match). -/
def afterTagOf (s : List Char) : List Char :=
  if tagRunOf s = [] then strippedOf s
  else replaceFirst (tagRunOf s) [] (strippedOf s)

/-- Shallow embedding of `util.selectorToComponents` (List Char level).
Attributes are extracted and removed first, then the tag name is matched at
the start and removed, then the id (first match only) and the classes (all
matches) are read off the remaining string.  `result.attributes` is built by
JavaScript object assignment in match order. -/
def selectorToComponentsL (s : List Char) : Components :=
  { tagName := String.mk (if tagRunOf s = [] then "div".data else tagRunOf s)
    id := (findIdMatch (afterTagOf s)).map String.mk
    classList := (collectClasses (afterTagOf s)).map String.mk
    attributes :=
      (attrMatchesOf s).foldl
        (fun m mt => assignKV m (String.mk mt.name) (String.mk (valueOfMatch mt))) [] }

/-- Shallow embedding of `util.selectorToComponents`. -/
def selectorToComponents (s : String) : Components :=
  selectorToComponentsL s.data

/-- Match of the lazy regex `\[.*?\]` at the start of the input: a `[`, then
the shortest run of `.`-matchable characters, then the first `]`. -/
def matchBracketHere (s : List Char) : Option (List Char) :=
  match s with
  | [] => none
  | c :: t =>
    if c = '[' then
      let seg := t.takeWhile (fun c => c ≠ ']' ∧ isRegexAnyCh c)
      match t.dropWhile (fun c => c ≠ ']' ∧ isRegexAnyCh c) with
      | ']' :: _ => some ('[' :: seg ++ [']'])
      | _ => none
    else none

/-- First match of `\[.*?\]`, with its start index relative to the input. -/
def findBracket : List Char → Option (Nat × List Char)
  | [] => none
  | c :: t =>
    match matchBracketHere (c :: t) with
    | some m => some (0, m)
    | none => (findBracket t).map fun (i, m) => (i + 1, m)

/-- `attributeRegex.exec(input)` for the global `\[.*?\]` of
`util.resolveRelativeElement`: first match at or after `lastIndex`, as an
absolute index.  The regex object's `lastIndex` survives reassignment of
`input`, which is why the index is explicit here. -/
def execBracketFrom (s : List Char) (lastIndex : Nat) : Option (Nat × List Char) :=
  (findBracket (s.drop lastIndex)).map fun (i, m) => (lastIndex + i, m)

/-- The placeholder text `'ATTR' + attributePlaceholders.length`. -/
def attrPlaceholder (n : Nat) : List Char :=
  'A' :: 'T' :: 'T' :: 'R' :: (Nat.repr n).data

/-- Fueled loop replacing bracketed attribute selectors with placeholders in
`util.resolveRelativeElement`.  Each iteration matches `\[.*?\]` at or after
the saved `lastIndex`, replaces the first occurrence of the matched text in
the (already partially rewritten) input, and advances `lastIndex` to the end
of the match as measured in the string the regex saw.  Every iteration
removes at least one `[` from the input and placeholders contain none, so
fuel `input.length + 1` is never exhausted. -/
def placeholderLoopF : Nat → List Char → Nat → List (List Char) →
    List Char × List (List Char)
  | 0, input, _, phs => (input, phs)
  | fuel + 1, input, lastIndex, phs =>
    match execBracketFrom input lastIndex with
    | none => (input, phs)
    | some (i, m) =>
      placeholderLoopF fuel (replaceFirst m (attrPlaceholder phs.length) input)
        (i + m.length) (phs ++ [m])

/-- JavaScript `String.prototype.lastIndexOf` for a single character:
the largest index holding `c`, or `-1`. -/
def jsLastIndexOf (c : Char) (s : List Char) : Int :=
  ((s.enum.filter (fun p => p.2 = c)).map (fun p => (p.1 : Int))).foldl max (-1)

/-- Result object of `util.resolveRelativeElement`.  `parentElement` and
`siblingElement` are `none` when the corresponding property stays
`undefined`; note that an empty string is a possible (falsy) value. -/
structure RelResult where
  elementDefinition : String
  parentElement : Option String
  siblingElement : Option String
deriving DecidableEq

/-- One step of the placeholder-restoration loop: replace the first
occurrence of `'ATTR' + i` in `elementDefinition`, and in `parentElement` /
`siblingElement` only when those are truthy (defined and non-empty). -/
def restoreStep (phs : List (List Char)) (r : List Char × Option (List Char) × Option (List Char))
    (i : Nat) : List Char × Option (List Char) × Option (List Char) :=
  let ph := attrPlaceholder i
  let orig := phs.getD i []
  let (ed, pe, se) := r
  ( replaceFirst ph orig ed
  , match pe with
    | some p => if p = [] then some p else some (replaceFirst ph orig p)
    | none => none
  , match se with
    | some q => if q = [] then some q else some (replaceFirst ph orig q)
    | none => none )

/-- Shallow embedding of `util.resolveRelativeElement` (List Char level). -/
def resolveRelativeElementL (input0 : List Char) : RelResult :=
  let (input, phs) := placeholderLoopF (input0.length + 1) input0 0 []
  let lastCombinatorIndex := max (jsLastIndexOf '>' input) (jsLastIndexOf '+' input)
  let r0 : List Char × Option (List Char) × Option (List Char) :=
    if lastCombinatorIndex = -1 then (jsTrim input, none, none)
    else
      let i := lastCombinatorIndex.toNat
      let ed := jsTrim (input.drop (i + 1))
      if input.getD i ' ' = '>' then (ed, some (jsTrim (input.take i)), none)
      else (ed, none, some (jsTrim (input.take i)))
  let (ed, pe, se) := (List.range phs.length).foldl (restoreStep phs) r0
  ⟨String.mk ed, pe.map String.mk, se.map String.mk⟩

/-- Shallow embedding of `util.resolveRelativeElement`. -/
def resolveRelativeElement (input : String) : RelResult :=
  resolveRelativeElementL input.data

/-- The tag name `util.make` passes to `document.createElement`: `make` runs
`resolveRelativeElement` on its selector and `selectorToComponents` on the
resulting element definition (`components.tagName || "div"`; the parsed tag
name is never empty, so the fallback never fires). -/
def makeTagName (selector : String) : String :=
  (selectorToComponents (resolveRelativeElement selector).elementDefinition).tagName

/-- A loosely typed JavaScript argument as passed to `arcTo`: a number, a
boolean, or `undefined`.  Numeric arguments are modelled as integers (the
source concatenates them into strings; only their decimal rendering matters
here). -/
inductive JsArg where
  | numA (n : Int)
  | boolA (b : Bool)
  | undefA
deriving DecidableEq

/-- String coercion applied by JavaScript `+` to an argument. -/
def jsArgStr : JsArg → String
  | .numA n => toString n
  | .boolA b => if b then "true" else "false"
  | .undefA => "undefined"

/-- String coercion of a possibly-undefined numeric argument. -/
def optNumStr : Option Int → String
  | some n => toString n
  | none => "undefined"

/-- JavaScript falsiness of a possibly-undefined numeric argument
(`undefined` and `0` are falsy). -/
def optFalsy : Option Int → Bool
  | none => true
  | some n => n = 0

namespace pathInstructions

/-- The `d` attribute read: `this.getAttribute("d") || ""` (a missing
attribute is `null`, and both `null` and the empty string are falsy). -/
def dVal (d : Option String) : String :=
  d.getD ""

/-- Each path-instruction method mutates `this` (the path element, modelled
as its `d` attribute) and returns it; state passing stands in for both. -/
def moveTo (x y : Int) (d : Option String) : Option String :=
  some (dVal d ++ " M" ++ toString x ++ "," ++ toString y)

/-- Relative moveTo: appends an `m` command. -/
def moveToRelative (x y : Int) (d : Option String) : Option String :=
  some (dVal d ++ " m" ++ toString x ++ "," ++ toString y)

/-- Absolute lineTo: appends an `L` command. -/
def lineTo (x y : Int) (d : Option String) : Option String :=
  some (dVal d ++ " L" ++ toString x ++ "," ++ toString y)

/-- Relative lineTo: appends an `l` command. -/
def lineToRelative (x y : Int) (d : Option String) : Option String :=
  some (dVal d ++ " l" ++ toString x ++ "," ++ toString y)

/-- Absolute horizontal line: appends an `H` command. -/
def horizontalLineTo (x : Int) (d : Option String) : Option String :=
  some (dVal d ++ " H" ++ toString x)

/-- Relative horizontal line: appends an `h` command. -/
def horizontalLineToRelative (x : Int) (d : Option String) : Option String :=
  some (dVal d ++ " h" ++ toString x)

/-- Absolute vertical line: appends a `V` command. -/
def verticalLineTo (y : Int) (d : Option String) : Option String :=
  some (dVal d ++ " V" ++ toString y)

/-- Relative vertical line: appends a `v` command. -/
def verticalLineToRelative (y : Int) (d : Option String) : Option String :=
  some (dVal d ++ " v" ++ toString y)

/-- The argument shifting shared by `arcTo` and `arcToRelative`: when
`xAxisRotation` (or `largeArcFlag`) is a boolean the source moves it into
`sweepFlag` and zeroes the original position; the second `typeof` check tests
the original `largeArcFlag`. -/
def arcShuffle (xAxisRotation largeArcFlag sweepFlag : JsArg) :
    JsArg × JsArg × JsArg :=
  let (xr1, sw1) :=
    match xAxisRotation with
    | .boolA b => (JsArg.numA 0, JsArg.boolA b)
    | _ => (xAxisRotation, sweepFlag)
  let (la2, sw2) :=
    match largeArcFlag with
    | .boolA b => (JsArg.numA 0, JsArg.boolA b)
    | _ => (largeArcFlag, sw1)
  (xr1, la2, sw2)

/-- Absolute arc: appends an `A` command after the argument shifting. -/
def arcTo (rx ry : Int) (xAxisRotation largeArcFlag sweepFlag : JsArg)
    (x y : Int) (d : Option String) : Option String :=
  let (xr1, la2, sw2) := arcShuffle xAxisRotation largeArcFlag sweepFlag
  some (dVal d ++ " A" ++ toString rx ++ "," ++ toString ry ++ " " ++
    jsArgStr xr1 ++ " " ++ jsArgStr la2 ++ "," ++ jsArgStr sw2 ++ " " ++
    toString x ++ "," ++ toString y)

/-- Relative arc: appends an `a` command after the argument shifting. -/
def arcToRelative (rx ry : Int) (xAxisRotation largeArcFlag sweepFlag : JsArg)
    (x y : Int) (d : Option String) : Option String :=
  let (xr1, la2, sw2) := arcShuffle xAxisRotation largeArcFlag sweepFlag
  some (dVal d ++ " a" ++ toString rx ++ "," ++ toString ry ++ " " ++
    jsArgStr xr1 ++ " " ++ jsArgStr la2 ++ "," ++ jsArgStr sw2 ++ " " ++
    toString x ++ "," ++ toString y)

/-- Close path: appends a `Z` command. -/
def closePath (d : Option String) : Option String :=
  some (dVal d ++ " Z")

/-- Quadratic Bezier: when `x` and `y` are both falsy the call is treated as
the smooth form `T x1,y1`; otherwise `Q x1,y1 x,y`. -/
def quadraticBezierCurveTo (x1 y1 : Int) (x y : Option Int) (d : Option String) :
    Option String :=
  if optFalsy x ∧ optFalsy y then
    some (dVal d ++ " T" ++ toString x1 ++ "," ++ toString y1)
  else
    some (dVal d ++ " Q" ++ toString x1 ++ "," ++ toString y1 ++ " " ++
      optNumStr x ++ "," ++ optNumStr y)

/-- Relative quadratic Bezier (`t` / `q`). -/
def quadraticBezierCurveToRelative (x1 y1 : Int) (x y : Option Int)
    (d : Option String) : Option String :=
  if optFalsy x ∧ optFalsy y then
    some (dVal d ++ " t" ++ toString x1 ++ "," ++ toString y1)
  else
    some (dVal d ++ " q" ++ toString x1 ++ "," ++ toString y1 ++ " " ++
      optNumStr x ++ "," ++ optNumStr y)

/-- Cubic Bezier: when `x` and `y` are both falsy the call is treated as the
smooth form `S x2,y2`; otherwise `C x1,y1 x2,y2 x,y`. -/
def cubicBezierCurveTo (x1 y1 x2 y2 : Int) (x y : Option Int) (d : Option String) :
    Option String :=
  if optFalsy x ∧ optFalsy y then
    some (dVal d ++ " S" ++ toString x2 ++ "," ++ toString y2)
  else
    some (dVal d ++ " C" ++ toString x1 ++ "," ++ toString y1 ++ " " ++
      toString x2 ++ "," ++ toString y2 ++ " " ++ optNumStr x ++ "," ++ optNumStr y)

/-- Relative cubic Bezier (`s` / `c`). -/
def cubicBezierCurveToRelative (x1 y1 x2 y2 : Int) (x y : Option Int)
    (d : Option String) : Option String :=
  if optFalsy x ∧ optFalsy y then
    some (dVal d ++ " s" ++ toString x2 ++ "," ++ toString y2)
  else
    some (dVal d ++ " c" ++ toString x1 ++ "," ++ toString y1 ++ " " ++
      toString x2 ++ "," ++ toString y2 ++ " " ++ optNumStr x ++ "," ++ optNumStr y)

end pathInstructions

/-- A value in a style object: a string, or a function.  A JavaScript
style function may close over mutable state and return different strings on
different invocations; this is modelled by passing an invocation counter
(clock), which each call consumes and increments. -/
inductive StyleVal where
  | strV (s : String)
  | fnV (f : Nat → String)

/-- Element state touched by `util.applyStylesToElement`: the inline style
declarations (one insertion-ordered map; custom properties set via
`setProperty` live under their `--` names), and the `_dynamicStyles`
bookkeeping object. -/
structure StyledElem where
  styleMap : List (String × String)
  dynamicStyles : List (String × StyleVal)

/-- Test of the custom-property regex (anchored leading double hyphen) on a
property name. -/
def isCustomProp (p : String) : Bool :=
  match p.data with
  | '-' :: '-' :: _ => true
  | _ => false

/-- Test of the dash-then-any regex (a hyphen followed by a `.`-matchable
character) on a property name. -/
def hasDashPairL : List Char → Bool
  | [] => false
  | '-' :: c :: rest => if isRegexAnyCh c then true else hasDashPairL (c :: rest)
  | _ :: rest => hasDashPairL rest

/-- Global replacement of every dash-then-any match by the uppercased second
character: the CSS-notation to JS-notation conversion of a property name. -/
def cssToJsL : List Char → List Char
  | [] => []
  | '-' :: c :: rest => if isRegexAnyCh c then c.toUpper :: cssToJsL rest else '-' :: cssToJsL (c :: rest)
  | c :: rest => c :: cssToJsL rest

/-- CSS-notation to JS-notation property conversion on strings. -/
def cssToJsProp (p : String) : String :=
  String.mk (cssToJsL p.data)

/-- One iteration of the `for (var property in styles)` loop of
`util.applyStylesToElement`: record a function value in `_dynamicStyles` and
call it, then write the value under the custom-property name, the converted
JS-notation name, or the name as given.  The loop body reads the styles
object (the third accumulator component) but contains no assignment to it,
so it is passed through unchanged. -/
def applyStyleStep (acc : StyledElem × Nat × List (String × StyleVal))
    (pv : String × StyleVal) : StyledElem × Nat × List (String × StyleVal) :=
  let (e, clock, stylesObj) := acc
  let (property, v0) := pv
  let (e1, value, clock1) :=
    match v0 with
    | .fnV f => ({ e with dynamicStyles := assignKV e.dynamicStyles property v0 }, f clock, clock + 1)
    | .strV s => (e, s, clock)
  if isCustomProp property then
    ({ e1 with styleMap := assignKV e1.styleMap property value }, clock1, stylesObj)
  else if hasDashPairL property.data then
    ({ e1 with styleMap := assignKV e1.styleMap (cssToJsProp property) value }, clock1, stylesObj)
  else
    ({ e1 with styleMap := assignKV e1.styleMap property value }, clock1, stylesObj)

/-- Shallow embedding of `util.applyStylesToElement`.  The styles object is
an insertion-ordered list of own enumerable properties; the call returns the
updated element, the function-invocation clock, and the styles object as the
loop left it. -/
def applyStylesToElement (e : StyledElem) (clock : Nat)
    (styles : List (String × StyleVal)) :
    StyledElem × Nat × List (String × StyleVal) :=
  styles.foldl applyStyleStep (e, clock, styles)

/-- A value in an attributes object: a string or a function, as for styles. -/
inductive AttrVal where
  | strV (s : String)
  | fnV (f : Nat → String)

/-- String stored by `setAttribute` for an attribute value (only string and
function values are modelled). -/
def attrValStr : AttrVal → Nat → String
  | .strV s, _ => s
  | .fnV f, c => f c

/-- Element state touched by `util.setAttributesOnElement`: the attribute
map and the `_dynamicAttributes` bookkeeping object.  The SVG / MathML /
HTML branches differ only in which native setter receives the pair. -/
structure AttrElem where
  attrMap : List (String × String)
  dynamicAttrs : List (String × AttrVal)

/-- Shallow embedding of `util.setAttributesOnElement`.  For a function
value the source records it in `_dynamicAttributes` and then OVERWRITES the
caller's attributes object in place: `attributes[attr] = attributes[attr]()`.
The possibly mutated attributes object is returned alongside the element. -/
def setAttributesOnElement (e : AttrElem) (clock : Nat) :
    List (String × AttrVal) → AttrElem × Nat × List (String × AttrVal)
  | [] => (e, clock, [])
  | (k, v) :: rest =>
    let (e1, clock1, v1) :=
      match v with
      | .fnV f =>
        ({ e with dynamicAttrs := assignKV e.dynamicAttrs k v }, clock + 1,
          AttrVal.strV (f clock))
      | .strV s => (e, clock, AttrVal.strV s)
    let e2 := { e1 with attrMap := assignKV e1.attrMap k (attrValStr v1 clock1) }
    let (e3, clock3, rest') := setAttributesOnElement e2 clock1 rest
    (e3, clock3, (k, v1) :: rest')

/-- A JavaScript value as far as `objectToElement` inspects one: its
`make` / `draw` / `math` properties (for plain objects) and enough shape to
decide `typeof` and property-access behaviour. -/
inductive JsValue where
  | undefV
  | nullV
  | strV (s : String)
  | numV (n : Int)
  | boolV (b : Bool)
  | objV (mk dr mt : Option JsValue)

/-- Property access `obj.make` / `obj.draw` / `obj.math`: throws on
`null` and `undefined`, yields `undefined` for a missing property or a
primitive receiver. -/
def getProp (v : JsValue) (which : Fin 3) : Except Unit JsValue :=
  match v with
  | .undefV => .error ()
  | .nullV => .error ()
  | .objV mk dr mt =>
    .ok (match which with
      | 0 => mk.getD .undefV
      | 1 => dr.getD .undefV
      | 2 => mt.getD .undefV)
  | _ => .ok .undefV

/-- The string content of a value when `typeof v === "string"`. -/
def strOfVal : JsValue → Option String
  | .strV s => some s
  | _ => none

/-- The silent `catch` of `objectToElement`: a thrown exception produces the
implicit `undefined` return. -/
def swallow {E : Type} : Except Unit (Option E) → Except Unit (Option E)
  | .ok r => .ok r
  | .error _ => .ok none

/-- Shallow embedding of `objectToElement`.  The element constructors
(`this.make`, `this.draw`, `this.math` applied to the selector; content,
styles and listeners do not affect the control flow modelled here) are
abstract fallible functions.  The whole body is wrapped in
`try { ... } catch (e) { /* fail silently */ }`, modelled by `swallow`. -/
def objectToElement {E : Type} (mkF drF mtF : String → Except Unit E)
    (obj : JsValue) : Except Unit (Option E) :=
  swallow (do
    let m ← getProp obj 0
    match strOfVal m with
    | some s => (mkF s).map some
    | none => do
      let d ← getProp obj 1
      match strOfVal d with
      | some s => (drF s).map some
      | none => do
        let t ← getProp obj 2
        match strOfVal t with
        | some s => (mtF s).map some
        | none => pure none)

/-- Specification-side description of `objectToElement`'s result, written
from the claim: the first of `make` / `draw` / `math` that is a string picks
the constructor, a thrown construction is swallowed to `undefined`, and
everything else (including `null`, `undefined` and primitive receivers)
yields `undefined`. -/
def objectToElementSpec {E : Type} (mkF drF mtF : String → Except Unit E)
    (obj : JsValue) : Option E :=
  match obj with
  | .objV mk dr mt =>
    match strOfVal (mk.getD .undefV), strOfVal (dr.getD .undefV),
        strOfVal (mt.getD .undefV) with
    | some s, _, _ => (mkF s).toOption
    | none, some s, _ => (drF s).toOption
    | none, none, some s => (mtF s).toOption
    | none, none, none => none
  | _ => none

/-- A member of an array passed to `append`: a DOM `Element` or anything
else (string, number, nested array, ...). -/
inductive DomItem (E : Type) where
  | elemI (e : E)
  | otherI
deriving DecidableEq

/-- The `contentToAppend` argument of `append`: a single `Element`, an
array, or any other value. -/
inductive AppendArg (E : Type) where
  | elemA (e : E)
  | arrA (xs : List (DomItem E))
  | otherA
deriving DecidableEq

/-- DOM `appendChild` restricted to one parent's child list: an element
already present is moved to the end, otherwise it is appended. -/
def appendChildOp {E : Type} [DecidableEq E] (children : List E) (e : E) :
    List E :=
  children.erase e ++ [e]

/-- The `Element` members of an array, in order. -/
def elemMembers {E : Type} (xs : List (DomItem E)) : List E :=
  xs.filterMap fun i =>
    match i with
    | .elemI e => some e
    | .otherI => none

/-- Shallow embedding of `append` (the child list of the target element):
`instanceof Element` appends directly, `Array.isArray` appends each member
that is an `Element` and skips the rest, anything else does nothing. -/
def append {E : Type} [DecidableEq E] (children : List E) (arg : AppendArg E) :
    List E :=
  match arg with
  | .elemA e => appendChildOp children e
  | .arrA xs =>
    xs.foldl
      (fun c item =>
        match item with
        | .elemI e => appendChildOp c e
        | .otherI => c) children
  | .otherA => children

/-- Splitting a string literal that begins with a space off the front of a
concatenation. -/
theorem append_space_split (lit p : String) (h : lit = " " ++ p) (z : String) :
    lit ++ z = " " ++ (p ++ z) := by
  subst h; rw [String.append_assoc]

/-- Swallowing a constructor call whose success is wrapped in `some`. -/
theorem swallow_map_some {E : Type} (x : Except Unit E) :
    swallow (x.map some) = .ok x.toOption := by
  cases x <;> rfl

/-- Swallowing a successful body is the identity. -/
theorem swallow_ok {E : Type} (r : Option E) :
    swallow (.ok r) = .ok r := rfl

/-- The array branch of `append` processes exactly the `Element` members, in
array order, skipping everything else. -/
theorem append_arrA_foldl {E : Type} [DecidableEq E] (xs : List (DomItem E))
    (children : List E) :
    append children (.arrA xs) = (elemMembers xs).foldl appendChildOp children := by
  induction xs generalizing children with
  | nil => rfl
  | cons i t ih =>
    cases i with
    | elemI e =>
      simp only [append, elemMembers, List.filterMap_cons, List.foldl_cons] at *
      exact ih (appendChildOp children e)
    | otherI =>
      simp only [append, elemMembers, List.filterMap_cons, List.foldl_cons] at *
      exact ih children

/-- Appending a list of fresh, pairwise distinct elements one at a time is
plain concatenation. -/
theorem foldl_appendChildOp_fresh {E : Type} [DecidableEq E] (els : List E) :
    ∀ children : List E, els.Nodup → (∀ x ∈ els, x ∉ children) →
      els.foldl appendChildOp children = children ++ els := by
  induction els with
  | nil => intro children _ _; simp
  | cons e t ih =>
    intro children hnd hfresh
    have he : e ∉ children := hfresh e (by simp)
    have step : appendChildOp children e = children ++ [e] := by
      simp [appendChildOp, List.erase_of_not_mem he]
    rw [List.foldl_cons, step, ih (children ++ [e]) hnd.of_cons]
    · simp
    · intro x hx
      simp only [List.mem_append, List.mem_singleton]
      rintro (hc | rfl)
      · exact hfresh x (by simp [hx]) hc
      · exact (List.nodup_cons.mp hnd).1 hx

/-- Left-biased choice on options (JavaScript-style override: the first
defined value wins). -/
def altO {β : Type} : Option β → Option β → Option β
  | some x, _ => some x
  | none, b => b

/-- The value of the last assignment to key `k` in an assignment list. -/
def lastAssign {α β : Type} [DecidableEq α] (l : List (α × β)) (k : α) :
    Option β :=
  ((l.filter (fun kv => kv.1 = k)).getLast?).map Prod.snd

theorem altO_self_absorb {β : Type} (a b : Option β) :
    altO a (altO a b) = altO a b := by
  cases a <;> rfl

theorem getLast?_cons_form {α : Type} (x : α) (xs : List α) :
    (x :: xs).getLast? = altO xs.getLast? (some x) := by
  induction xs with
  | nil => rfl
  | cons y ys _ =>
    rw [List.getLast?_cons_cons]
    cases h : (y :: ys).getLast? with
    | none => simp [List.getLast?_eq_none_iff] at h
    | some v => rfl

theorem lastAssign_cons {α β : Type} [DecidableEq α] (a : α) (b : β)
    (l : List (α × β)) (k : α) :
    lastAssign ((a, b) :: l) k =
      if a = k then altO (lastAssign l k) (some b) else lastAssign l k := by
  by_cases h : a = k
  · subst h
    simp only [lastAssign, List.filter_cons, decide_eq_true_eq, if_pos rfl]
    rw [if_pos (by simp), getLast?_cons_form]
    cases hg : (l.filter (fun kv => kv.1 = a)).getLast? <;> simp [altO]
  · simp [lastAssign, List.filter_cons, h]

theorem lookupKV_cons {α β : Type} [DecidableEq α] (a : α) (b : β)
    (l : List (α × β)) (k : α) :
    lookupKV ((a, b) :: l) k = if a = k then some b else lookupKV l k := rfl

theorem lookupKV_eq_none_of_not_mem {α β : Type} [DecidableEq α]
    (m : List (α × β)) (k : α) (h : k ∉ m.map Prod.fst) :
    lookupKV m k = none := by
  induction m with
  | nil => rfl
  | cons kv t ih =>
    obtain ⟨a, b⟩ := kv
    simp only [List.map_cons, List.mem_cons, not_or] at h
    rw [lookupKV_cons, if_neg (fun hh => h.1 hh.symm)]
    exact ih h.2

theorem keysOf_assignKV {α β : Type} [DecidableEq α] (m : List (α × β))
    (k : α) (v : β) :
    (assignKV m k v).map Prod.fst =
      if k ∈ m.map Prod.fst then m.map Prod.fst else m.map Prod.fst ++ [k] := by
  induction m with
  | nil => simp [assignKV]
  | cons kv t ih =>
    obtain ⟨a, b⟩ := kv
    by_cases h : a = k
    · subst h; simp [assignKV]
    · simp only [assignKV, if_neg h, List.map_cons, ih, List.mem_cons]
      by_cases hk : k ∈ t.map Prod.fst
      · simp [hk, Ne.symm h]
      · simp [hk, Ne.symm h]

theorem nodup_keysOf_assignKV {α β : Type} [DecidableEq α]
    (m : List (α × β)) (k : α) (v : β) (h : (m.map Prod.fst).Nodup) :
    ((assignKV m k v).map Prod.fst).Nodup := by
  rw [keysOf_assignKV]
  by_cases hk : k ∈ m.map Prod.fst
  · rw [if_pos hk]; exact h
  · rw [if_neg hk]
    exact List.Nodup.append h (List.nodup_singleton k)
      (List.disjoint_singleton.mpr hk)

theorem lookupKV_assignKV_self {α β : Type} [DecidableEq α]
    (m : List (α × β)) (k : α) (v : β) :
    lookupKV (assignKV m k v) k = some v := by
  induction m with
  | nil => simp [assignKV, lookupKV]
  | cons kv t ih =>
    obtain ⟨a, b⟩ := kv
    by_cases h : a = k
    · subst h; simp [assignKV, lookupKV]
    · rw [show assignKV ((a, b) :: t) k v = (a, b) :: assignKV t k v from by
        simp [assignKV, h]]
      rw [lookupKV_cons, if_neg h]
      exact ih

theorem lookupKV_assignKV_ne {α β : Type} [DecidableEq α]
    (m : List (α × β)) (k k2 : α) (v : β) (h : k ≠ k2) :
    lookupKV (assignKV m k v) k2 = lookupKV m k2 := by
  induction m with
  | nil => simp [assignKV, lookupKV, h]
  | cons kv t ih =>
    obtain ⟨a, b⟩ := kv
    by_cases ha : a = k
    · subst ha
      rw [show assignKV ((a, b) :: t) a v = (a, v) :: t from by simp [assignKV]]
      rw [lookupKV_cons, lookupKV_cons]
      by_cases hak : a = k2
      · exact absurd hak h
      · simp [hak]
    · rw [show assignKV ((a, b) :: t) k v = (a, b) :: assignKV t k v from by
        simp [assignKV, ha]]
      rw [lookupKV_cons, lookupKV_cons]
      by_cases hak : a = k2
      · simp [hak]
      · simp [hak, ih]

/-- An association list with duplicate-free keys is determined by its key
order and its lookup function. -/
theorem assoc_ext {α β : Type} [DecidableEq α] :
    ∀ (m1 m2 : List (α × β)), m1.map Prod.fst = m2.map Prod.fst →
      (m1.map Prod.fst).Nodup →
      (∀ k, lookupKV m1 k = lookupKV m2 k) → m1 = m2 := by
  intro m1
  induction m1 with
  | nil =>
    intro m2 hk _ _
    cases m2 with
    | nil => rfl
    | cons kv t => simp at hk
  | cons kv t ih =>
    intro m2 hk hnd hl
    obtain ⟨a, b⟩ := kv
    cases m2 with
    | nil => simp at hk
    | cons kv2 t2 =>
      obtain ⟨a2, b2⟩ := kv2
      simp only [List.map_cons, List.cons.injEq] at hk
      obtain ⟨rfl, hkt⟩ := hk
      simp only [List.map_cons, List.nodup_cons] at hnd
      have hb : b = b2 := by
        have hv := hl a
        rw [lookupKV_cons, lookupKV_cons, if_pos rfl, if_pos rfl] at hv
        exact Option.some.inj hv
      subst hb
      have hna : a ∉ t.map Prod.fst := hnd.1
      have hna2 : a ∉ t2.map Prod.fst := hkt ▸ hna
      have ht : t = t2 := by
        refine ih t2 hkt hnd.2 ?_
        intro k
        by_cases hak : a = k
        · subst hak
          rw [lookupKV_eq_none_of_not_mem t a hna,
            lookupKV_eq_none_of_not_mem t2 a hna2]
        · have hv := hl k
          rwa [lookupKV_cons, lookupKV_cons, if_neg hak, if_neg hak] at hv
      rw [ht]

theorem foldAssign_cons {α β : Type} [DecidableEq α] (m : List (α × β))
    (a : α) (b : β) (l : List (α × β)) :
    foldAssign m ((a, b) :: l) = foldAssign (assignKV m a b) l := rfl

theorem lookupKV_foldAssign {α β : Type} [DecidableEq α]
    (l : List (α × β)) : ∀ (m : List (α × β)) (k : α),
    lookupKV (foldAssign m l) k = altO (lastAssign l k) (lookupKV m k) := by
  induction l with
  | nil => intro m k; rfl
  | cons kv t ih =>
    intro m k
    obtain ⟨a, b⟩ := kv
    rw [foldAssign_cons, ih, lastAssign_cons]
    by_cases h : a = k
    · subst h
      rw [if_pos rfl, lookupKV_assignKV_self]
      cases lastAssign t a <;> rfl
    · rw [if_neg h, lookupKV_assignKV_ne m a k b h]

theorem mem_keysOf_foldAssign_of_mem {α β : Type} [DecidableEq α]
    (l : List (α × β)) : ∀ (m : List (α × β)) (k : α),
      k ∈ m.map Prod.fst → k ∈ (foldAssign m l).map Prod.fst := by
  induction l with
  | nil => intro m k h; exact h
  | cons kv t ih =>
    intro m k h
    obtain ⟨a, b⟩ := kv
    rw [foldAssign_cons]
    refine ih (assignKV m a b) k ?_
    rw [keysOf_assignKV]
    by_cases ha : a ∈ m.map Prod.fst
    · rw [if_pos ha]; exact h
    · rw [if_neg ha]; exact List.mem_append_left _ h

theorem mem_keysOf_foldAssign_of_assigned {α β : Type} [DecidableEq α]
    (l : List (α × β)) : ∀ (m : List (α × β)) (k : α),
      k ∈ l.map Prod.fst → k ∈ (foldAssign m l).map Prod.fst := by
  induction l with
  | nil => intro m k h; simp at h
  | cons kv t ih =>
    intro m k h
    obtain ⟨a, b⟩ := kv
    rw [foldAssign_cons]
    simp only [List.map_cons, List.mem_cons] at h
    rcases h with rfl | h
    · refine mem_keysOf_foldAssign_of_mem t (assignKV m k b) k ?_
      rw [keysOf_assignKV]
      by_cases hk : k ∈ m.map Prod.fst
      · rw [if_pos hk]; exact hk
      · rw [if_neg hk]; exact List.mem_append_right _ (by simp)
    · exact ih (assignKV m a b) k h

theorem keysOf_foldAssign_of_subset {α β : Type} [DecidableEq α]
    (l : List (α × β)) : ∀ (m : List (α × β)),
      (∀ k ∈ l.map Prod.fst, k ∈ m.map Prod.fst) →
      (foldAssign m l).map Prod.fst = m.map Prod.fst := by
  induction l with
  | nil => intro m _; rfl
  | cons kv t ih =>
    intro m hsub
    obtain ⟨a, b⟩ := kv
    rw [foldAssign_cons]
    have ha : a ∈ m.map Prod.fst := hsub a (by simp)
    have hkeys : (assignKV m a b).map Prod.fst = m.map Prod.fst := by
      rw [keysOf_assignKV, if_pos ha]
    rw [ih (assignKV m a b) (fun k hk => by
      rw [hkeys]
      exact hsub k (by rw [List.map_cons]; exact List.mem_cons_of_mem a hk)), hkeys]

theorem nodup_keysOf_foldAssign {α β : Type} [DecidableEq α]
    (l : List (α × β)) : ∀ (m : List (α × β)), (m.map Prod.fst).Nodup →
      ((foldAssign m l).map Prod.fst).Nodup := by
  induction l with
  | nil => intro m h; exact h
  | cons kv t ih =>
    intro m h
    obtain ⟨a, b⟩ := kv
    rw [foldAssign_cons]
    exact ih (assignKV m a b) (nodup_keysOf_assignKV m a b h)

/-- Replaying the same sequence of object assignments leaves an association
list with duplicate-free keys unchanged. -/
theorem foldAssign_idem {α β : Type} [DecidableEq α] (m l : List (α × β))
    (h : (m.map Prod.fst).Nodup) :
    foldAssign (foldAssign m l) l = foldAssign m l := by
  refine assoc_ext _ _ ?_ ?_ ?_
  · exact keysOf_foldAssign_of_subset l (foldAssign m l)
      (fun k hk => mem_keysOf_foldAssign_of_assigned l m k hk)
  · exact nodup_keysOf_foldAssign l (foldAssign m l)
      (nodup_keysOf_foldAssign l m h)
  · intro k
    rw [lookupKV_foldAssign, lookupKV_foldAssign, altO_self_absorb]

/-- The style-map key actually written for a property name: the name itself
for a custom property, the JS-notation conversion when the name contains a
dash pair, and the name itself otherwise. -/
def stylePropName (p : String) : String :=
  if isCustomProp p then p else if hasDashPairL p.data then cssToJsProp p else p

/-- The value written for a style entry at a given clock. -/
def styleValAt : StyleVal → Nat → String
  | .strV s, _ => s
  | .fnV f, clock => f clock

/-- The normalized style-map assignments one pass performs, with function
values taken at clock 0 (meaningful when the functions are constant). -/
def styleAssignments (styles : List (String × StyleVal)) :
    List (String × String) :=
  styles.map fun pv => (stylePropName pv.1, styleValAt pv.2 0)

/-- The dynamic-style bookkeeping assignments one pass performs. -/
def dynAssignments (styles : List (String × StyleVal)) :
    List (String × StyleVal) :=
  styles.filterMap fun pv =>
    match pv.2 with
    | .fnV _ => some pv
    | .strV _ => none

/-- Characterization of one loop iteration of `applyStylesToElement`. -/
theorem applyStyleStep_eq (e : StyledElem) (clock : Nat)
    (st : List (String × StyleVal)) (p : String) (v : StyleVal) :
    applyStyleStep (e, clock, st) (p, v) =
      ({ styleMap := assignKV e.styleMap (stylePropName p) (styleValAt v clock)
         dynamicStyles :=
           match v with
           | .fnV _ => assignKV e.dynamicStyles p v
           | .strV _ => e.dynamicStyles },
       (match v with
        | .fnV _ => clock + 1
        | .strV _ => clock), st) := by
  cases v with
  | strV s =>
    simp only [applyStyleStep, stylePropName, styleValAt]
    by_cases h1 : isCustomProp p
    · simp [h1]
    · by_cases h2 : hasDashPairL p.data <;> simp [h1, h2]
  | fnV f =>
    simp only [applyStyleStep, stylePropName, styleValAt]
    by_cases h1 : isCustomProp p
    · simp [h1]
    · by_cases h2 : hasDashPairL p.data <;> simp [h1, h2]

/-- The loop of `applyStylesToElement` never writes to the styles object. -/
theorem foldl_applyStyleStep_styles (l : List (String × StyleVal)) :
    ∀ acc : StyledElem × Nat × List (String × StyleVal),
      (l.foldl applyStyleStep acc).2.2 = acc.2.2 := by
  induction l with
  | nil => intro acc; rfl
  | cons pv t ih =>
    intro acc
    obtain ⟨e, clock, st⟩ := acc
    obtain ⟨p, v⟩ := pv
    rw [List.foldl_cons, ih, applyStyleStep_eq]

/-- Under clock-independent function values, one pass of
`applyStylesToElement` is the pair of assignment replays described by
`styleAssignments` and `dynAssignments`. -/
theorem foldl_applyStyleStep_normalized (l : List (String × StyleVal)) :
    ∀ (e : StyledElem) (clock : Nat) (st : List (String × StyleVal)),
      (∀ p f, (p, StyleVal.fnV f) ∈ l → ∀ i j : Nat, f i = f j) →
      (l.foldl applyStyleStep (e, clock, st)).1 =
        ⟨foldAssign e.styleMap (styleAssignments l),
         foldAssign e.dynamicStyles (dynAssignments l)⟩ := by
  induction l with
  | nil => intro e clock st _; rfl
  | cons pv t ih =>
    intro e clock st hconst
    obtain ⟨p, v⟩ := pv
    rw [List.foldl_cons, applyStyleStep_eq]
    cases v with
    | strV s =>
      rw [ih _ _ _ (fun p' f' hm i j => hconst p' f' (List.mem_cons_of_mem _ hm) i j)]
      simp [styleAssignments, dynAssignments, foldAssign, styleValAt]
    | fnV f =>
      rw [ih _ _ _ (fun p' f' hm i j => hconst p' f' (List.mem_cons_of_mem _ hm) i j)]
      have hf : f clock = f 0 := hconst p f (by simp) clock 0
      simp [styleAssignments, dynAssignments, foldAssign, styleValAt, hf]

/-- Whether an attribute value is a plain string. -/
def isStrAttr : AttrVal → Bool
  | .strV _ => true
  | .fnV _ => false

/-- Whether a character list begins with a `[\w-]` character (the condition
for the tag-name regex `^[\w-]+` to match). -/
def headIsWordHyphen : List Char → Bool
  | [] => false
  | c :: _ => isWordHyphen c

theorem takeWhile_eq_nil_of_head_not (l : List Char)
    (h : headIsWordHyphen l = false) : l.takeWhile isWordHyphen = [] := by
  cases l with
  | nil => rfl
  | cons c t =>
    simp only [headIsWordHyphen] at h
    simp [List.takeWhile_cons, h]

/-- The first match of the non-global id regex is the head of the list of
all matches of the same regex. -/
theorem collectIdsF_head (fuel : Nat) : ∀ l : List Char, l.length < fuel →
    (collectIdsF fuel l).head? = findIdMatch l := by
  induction fuel with
  | zero => intro l h; omega
  | succ n ih =>
    intro l h
    cases l with
    | nil => rfl
    | cons c t =>
      simp only [collectIdsF, findIdMatch]
      by_cases hc : c = '#'
      · rw [if_pos hc, if_pos hc]
        by_cases hr : t.takeWhile isWordHyphen = []
        · rw [if_pos hr, if_pos hr]
          exact ih t (by simpa using Nat.lt_of_succ_lt_succ h)
        · rw [if_neg hr, if_neg hr, List.head?_cons]
      · rw [if_neg hc, if_neg hc]
        exact ih t (by simpa using Nat.lt_of_succ_lt_succ h)

theorem findIdMatch_eq_head_collectIds (l : List Char) :
    findIdMatch l = (collectIds l).head? :=
  (collectIdsF_head (l.length + 1) l (by omega)).symm

/-- The attribute name/value pairs recorded by the parser, in match order. -/
def attrPairsOf (s : List Char) : List (String × String) :=
  (attrMatchesOf s).map fun m => (String.mk m.name, String.mk (valueOfMatch m))

theorem selectorToComponents_attributes_eq_foldAssign (s : List Char) :
    (selectorToComponentsL s).attributes = foldAssign [] (attrPairsOf s) := by
  simp only [selectorToComponentsL, foldAssign, attrPairsOf, List.foldl_map]

/-- With no word-or-hyphen character at the start of the attribute-stripped
selector, the tag-name regex fails and the default tag name survives. -/
theorem tagName_div_of_head_not_word (s : List Char)
    (h : headIsWordHyphen (strippedOf s) = false) :
    (selectorToComponentsL s).tagName = "div" := by
  have hrun : tagRunOf s = [] := takeWhile_eq_nil_of_head_not _ h
  simp only [selectorToComponentsL, hrun, if_pos rfl]
  decide

/-- The bracketed attribute text `[name="value"]`. -/
def attrText (n v : List Char) : List Char :=
  '[' :: n ++ '=' :: '"' :: v ++ ['"', ']']

/-- A nonempty run of `[\w-]` characters (a name in the supported selector
form of the claim). -/
def wordHyphenStr (l : List Char) : Prop :=
  l ≠ [] ∧ ∀ c ∈ l, isWordHyphen c = true

/-- A value admissible inside `[name="value"]` in the supported form:
nonempty and free of quotes, brackets and line terminators. -/
def attrValueOk (v : List Char) : Prop :=
  v ≠ [] ∧ ∀ c ∈ v,
    isQuoteCh c = false ∧ isRegexAnyCh c = true ∧ c ≠ '[' ∧ c ≠ ']'

/-- The concatenated bracketed-attribute tail of a supported selector. -/
def attrsConcat (ps : List (List Char × List Char)) : List Char :=
  ps.foldr (fun nv acc => attrText nv.1 nv.2 ++ acc) []

/-- The id token of a supported selector. -/
def idPart : Option (List Char) → List Char
  | some i => '#' :: i
  | none => []

/-- The class tokens of a supported selector. -/
def clsConcat (cls : List (List Char)) : List Char :=
  cls.foldr (fun c acc => '.' :: c ++ acc) []

/-- A selector of the supported form
`tag#id.class1...classN[n1="v1"]...[nk="vk"]`. -/
def mkSelectorL (tag : List Char) (ident : Option (List Char))
    (cls : List (List Char)) (attrs : List (List Char × List Char)) :
    List Char :=
  tag ++ idPart ident ++ clsConcat cls ++ attrsConcat attrs

theorem takeWhile_all_append (p : Char → Bool) (a r : List Char)
    (h : ∀ c ∈ a, p c = true) :
    (a ++ r).takeWhile p = a ++ r.takeWhile p := by
  induction a with
  | nil => rfl
  | cons c t ih =>
    rw [List.cons_append, List.takeWhile_cons, if_pos (h c (by simp))]
    rw [ih (fun c hc => h c (by simp [hc]))]
    rfl

theorem dropWhile_all_append (p : Char → Bool) (a r : List Char)
    (h : ∀ c ∈ a, p c = true) :
    (a ++ r).dropWhile p = r.dropWhile p := by
  induction a with
  | nil => rfl
  | cons c t ih =>
    rw [List.cons_append, List.dropWhile_cons, if_pos (h c (by simp))]
    rw [ih (fun c hc => h c (by simp [hc]))]

theorem takeWhile_head_not (p : Char → Bool) (r : List Char)
    (h : ∀ c t, r = c :: t → p c = false) : r.takeWhile p = [] := by
  cases r with
  | nil => rfl
  | cons c t => rw [List.takeWhile_cons, if_neg (by simp [h c t rfl])]

theorem dropWhile_head_not (p : Char → Bool) (r : List Char)
    (h : ∀ c t, r = c :: t → p c = false) : r.dropWhile p = r := by
  cases r with
  | nil => rfl
  | cons c t => rw [List.dropWhile_cons, if_neg (by simp [h c t rfl])]

theorem matchAttrHere_not_bracket (c : Char) (t : List Char) (h : c ≠ '[') :
    matchAttrHere (c :: t) = none := by
  simp [matchAttrHere, h]

theorem findAttrMatch_skip (p : List Char) (hp : '[' ∉ p) (s : List Char) :
    findAttrMatch (p ++ s) = findAttrMatch s := by
  induction p with
  | nil => rfl
  | cons c t ih =>
    rw [List.cons_append]
    show (match matchAttrHere (c :: (t ++ s)) with
      | some res => some res
      | none => findAttrMatch (t ++ s)) = _
    rw [matchAttrHere_not_bracket c _ (fun hc => hp (hc ▸ by simp))]
    exact ih (fun hm => hp (by simp [hm]))

theorem scanQuoted_run (v : List Char)
    (hv : ∀ c ∈ v, isQuoteCh c = false ∧ isRegexAnyCh c = true)
    (q2 : Char) (hq2 : isQuoteCh q2 = true) (rest : List Char) :
    ∀ acc : List Char, acc ≠ [] ∨ v ≠ [] →
      scanQuoted acc (v ++ q2 :: ']' :: rest) = some (acc.reverse ++ v, q2, rest) := by
  induction v with
  | nil =>
    intro acc hne
    have hacc : acc ≠ [] := by
      rcases hne with h | h
      · exact h
      · exact absurd rfl h
    show scanQuoted acc (q2 :: ']' :: rest) = _
    rw [show scanQuoted acc (q2 :: ']' :: rest) =
      if isQuoteCh q2 ∧ (']' : Char) = ']' ∧ acc ≠ [] then
        some (acc.reverse, q2, rest)
      else if isRegexAnyCh q2 then scanQuoted (q2 :: acc) (']' :: rest)
      else none from rfl]
    rw [if_pos ⟨hq2, rfl, hacc⟩]
    simp
  | cons x v' ih =>
    intro acc _
    have hx := hv x (by simp)
    have hbody : ∀ d r', v' ++ q2 :: ']' :: rest = d :: r' →
        scanQuoted acc (x :: d :: r') = some (acc.reverse ++ x :: v', q2, rest) := by
      intro d r' hdr
      rw [show scanQuoted acc (x :: d :: r') =
        if isQuoteCh x ∧ d = ']' ∧ acc ≠ [] then some (acc.reverse, x, r')
        else if isRegexAnyCh x then scanQuoted (x :: acc) (d :: r')
        else none from rfl]
      rw [if_neg (by simp [hx.1]), if_pos hx.2, ← hdr,
        ih (fun c hc => hv c (by simp [hc])) (x :: acc) (Or.inl (by simp))]
      simp
    cases v' with
    | nil => simpa using hbody q2 (']' :: rest) rfl
    | cons y v'' => simpa using hbody y (v'' ++ q2 :: ']' :: rest) rfl

theorem matchAttrHere_attrText (n v rest : List Char)
    (hn : wordHyphenStr n) (hv : attrValueOk v) :
    matchAttrHere (attrText n v ++ rest) =
      some (⟨attrText n v, n, some v, none⟩, rest) := by
  obtain ⟨hn1, hn2⟩ := hn
  obtain ⟨hv1, hv2⟩ := hv
  have htail : attrText n v ++ rest =
      '[' :: (n ++ '=' :: '"' :: (v ++ '"' :: ']' :: rest)) := by
    simp [attrText]
  rw [htail]
  have htake : (n ++ '=' :: '"' :: (v ++ '"' :: ']' :: rest)).takeWhile
      isWordHyphen = n := by
    rw [takeWhile_all_append _ _ _ hn2,
      takeWhile_head_not _ _ (fun c t hct => by
        injection hct with h1 _
        rw [← h1]; decide)]
    simp
  have hdrop : (n ++ '=' :: '"' :: (v ++ '"' :: ']' :: rest)).dropWhile
      isWordHyphen = '=' :: '"' :: (v ++ '"' :: ']' :: rest) := by
    rw [dropWhile_all_append _ _ _ hn2,
      dropWhile_head_not _ _ (fun c t hct => by
        injection hct with h1 _
        rw [← h1]; decide)]
  show (if ('[' : Char) = '[' then _ else none) = _
  rw [if_pos rfl]
  simp only [htake, hdrop, if_neg hn1]
  simp only [if_true]
  rw [if_pos (show isQuoteCh '"' = true by decide)]
  rw [scanQuoted_run v (fun c hc => ⟨(hv2 c hc).1, (hv2 c hc).2.1⟩) '"'
    (by decide) rest [] (Or.inr hv1)]
  simp [attrText]

theorem findAttrMatch_cons (c : Char) (t : List Char) :
    findAttrMatch (c :: t) =
      match matchAttrHere (c :: t) with
      | some res => some res
      | none => findAttrMatch t := rfl

theorem attrsConcat_cons (n v : List Char) (tl : List (List Char × List Char)) :
    attrsConcat ((n, v) :: tl) = attrText n v ++ attrsConcat tl := rfl

theorem length_attrText (n v : List Char) :
    (attrText n v).length = n.length + v.length + 5 := by
  simp [attrText]
  omega

/-- On a supported selector the attribute-regex loop finds exactly the
bracketed attributes, in order. -/
theorem collectAttrsF_structured (fuel : Nat) :
    ∀ (ps : List (List Char × List Char)) (base : List Char), '[' ∉ base →
      (∀ nv ∈ ps, wordHyphenStr nv.1) → (∀ nv ∈ ps, attrValueOk nv.2) →
      (base ++ attrsConcat ps).length < fuel →
      collectAttrsF fuel (base ++ attrsConcat ps) =
        ps.map (fun nv => ⟨attrText nv.1 nv.2, nv.1, some nv.2, none⟩) := by
  induction fuel with
  | zero => intro ps base _ _ _ h; omega
  | succ f ih =>
    intro ps base hb hn hv h
    cases ps with
    | nil =>
      show collectAttrsF (f + 1) (base ++ []) = []
      rw [List.append_nil]
      have hfind : findAttrMatch base = none := by
        have := findAttrMatch_skip base hb []
        rwa [List.append_nil] at this
      cases base with
      | nil => rfl
      | cons c t =>
        show (match findAttrMatch (c :: t) with
          | none => []
          | some (m, rest) => m :: collectAttrsF f rest) = []
        rw [hfind]
    | cons nv tl =>
      obtain ⟨n, v⟩ := nv
      have hn0 := hn (n, v) (by simp)
      have hv0 := hv (n, v) (by simp)
      rw [attrsConcat_cons]
      have hmatch : findAttrMatch (base ++ (attrText n v ++ attrsConcat tl)) =
          some (⟨attrText n v, n, some v, none⟩, attrsConcat tl) := by
        rw [findAttrMatch_skip base hb]
        have hshape : attrText n v ++ attrsConcat tl =
            '[' :: ((n ++ '=' :: '"' :: v ++ ['"', ']']) ++ attrsConcat tl) := by
          simp [attrText]
        rw [hshape, findAttrMatch_cons, ← hshape,
          matchAttrHere_attrText n v (attrsConcat tl) hn0 hv0]
      have hlen : (base ++ (attrText n v ++ attrsConcat tl)).length =
          base.length + (n.length + v.length + 5) + (attrsConcat tl).length := by
        simp [length_attrText]
        omega
      have hne1 : 1 ≤ n.length := List.length_pos.mpr hn0.1
      have hne2 : 1 ≤ v.length := List.length_pos.mpr hv0.1
      have hcase : base ++ (attrText n v ++ attrsConcat tl) ≠ [] := by
        intro hnil
        have hlnil := congrArg List.length hnil
        rw [hlen] at hlnil
        simp at hlnil
      obtain ⟨c0, t0, hct⟩ := List.exists_cons_of_ne_nil hcase
      rw [hct]
      show (match findAttrMatch (c0 :: t0) with
        | none => []
        | some (m, rest) => m :: collectAttrsF f rest) = _
      rw [← hct]
      simp only [hmatch]
      have htl : (attrsConcat tl).length < f := by
        rw [attrsConcat_cons, hlen] at h
        omega
      have hih := ih tl [] (by simp)
        (fun nv hm => hn nv (by simp [hm]))
        (fun nv hm => hv nv (by simp [hm])) (by simpa using htl)
      rw [List.nil_append] at hih
      rw [hih, List.map_cons]

/-- All attribute matches of a supported selector. -/
theorem collectAttrs_structured (ps : List (List Char × List Char))
    (base : List Char) (hb : '[' ∉ base)
    (hn : ∀ nv ∈ ps, wordHyphenStr nv.1) (hv : ∀ nv ∈ ps, attrValueOk nv.2) :
    collectAttrs (base ++ attrsConcat ps) =
      ps.map (fun nv => ⟨attrText nv.1 nv.2, nv.1, some nv.2, none⟩) :=
  collectAttrsF_structured ((base ++ attrsConcat ps).length + 1) ps base hb hn hv
    (by omega)

theorem removeAllF_succ_cons (att : List Char) (f : Nat) (c : Char)
    (t : List Char) :
    removeAllF att (f + 1) (c :: t) =
      if att ≠ [] ∧ att.isPrefixOf (c :: t) then
        removeAllF att f ((c :: t).drop att.length)
      else c :: removeAllF att f t := rfl

theorem removeAllF_stable (att : List Char) (f1 : Nat) :
    ∀ (s : List Char) (f2 : Nat), s.length < f1 → s.length < f2 →
      removeAllF att f1 s = removeAllF att f2 s := by
  induction f1 with
  | zero => intro s f2 h1 _; omega
  | succ n ih =>
    intro s f2 h1 h2
    cases s with
    | nil =>
      cases f2 with
      | zero => omega
      | succ m => rfl
    | cons c t =>
      cases f2 with
      | zero => omega
      | succ m =>
        rw [removeAllF_succ_cons, removeAllF_succ_cons]
        by_cases hc : att ≠ [] ∧ att.isPrefixOf (c :: t)
        · rw [if_pos hc, if_pos hc]
          have hlen : ((c :: t).drop att.length).length ≤ t.length := by
            have : 1 ≤ att.length :=
              List.length_pos.mpr (by simpa using hc.1)
            simp [List.length_drop]
            omega
          exact ih _ m (by simp at h1; omega) (by simp at h2; omega)
        · rw [if_neg hc, if_neg hc]
          rw [ih t m (by simp at h1; omega) (by simp at h2; omega)]

theorem removeAll_nil (att : List Char) : removeAll att [] = [] := rfl

theorem removeAll_cons_not (att : List Char) (c : Char) (t : List Char)
    (h : ¬(att ≠ [] ∧ att.isPrefixOf (c :: t))) :
    removeAll att (c :: t) = c :: removeAll att t := by
  show removeAllF att ((c :: t).length + 1) (c :: t) = _
  rw [show (c :: t).length + 1 = t.length + 1 + 1 from by simp,
    removeAllF_succ_cons, if_neg h]
  rfl

theorem removeAll_prefix (att : List Char) (s : List Char) (ha : att ≠ []) :
    removeAll att (att ++ s) = removeAll att s := by
  cases hat : att with
  | nil => exact absurd hat ha
  | cons a att2 =>
    rw [← hat]
    show removeAllF att ((att ++ s).length + 1) (att ++ s) = _
    have hshape : att ++ s = a :: (att2 ++ s) := by rw [hat]; rfl
    have hpre : att.isPrefixOf (a :: (att2 ++ s)) = true := by
      rw [← hshape, List.isPrefixOf_iff_prefix]
      exact List.prefix_append att s
    rw [hshape,
      show (a :: (att2 ++ s)).length + 1 = (att2 ++ s).length + 1 + 1 from by simp,
      removeAllF_succ_cons, if_pos (And.intro ha hpre), ← hshape, List.drop_left]
    refine removeAllF_stable att _ s _ ?_ (by omega)
    have h2 : (att2 ++ s).length = att2.length + s.length := by simp
    omega

theorem removeAll_append_noBracket (att b s : List Char)
    (ha : ∃ a2, att = '[' :: a2) (hb : '[' ∉ b) :
    removeAll att (b ++ s) = b ++ removeAll att s := by
  induction b with
  | nil => simp
  | cons c b2 ih =>
    obtain ⟨a2, hat⟩ := ha
    have hc : c ≠ '[' := fun hc => hb (by simp [hc])
    have hnp : ¬(att ≠ [] ∧ att.isPrefixOf (c :: (b2 ++ s))) := by
      rintro ⟨-, hpre⟩
      rw [hat] at hpre
      simp only [List.isPrefixOf, Bool.and_eq_true, beq_iff_eq] at hpre
      exact hc hpre.1.symm
    rw [List.cons_append, removeAll_cons_not att c _ hnp,
      ih (fun hm => hb (by simp [hm]))]
    rfl

theorem removeAll_noOccur (att : List Char) (_ : att ≠ []) :
    ∀ s : List Char, (∀ i, ¬(att.isPrefixOf (s.drop i) = true)) →
      removeAll att s = s := by
  intro s
  induction s with
  | nil => intro _; rfl
  | cons c t ih =>
    intro h
    have hnp : ¬(att ≠ [] ∧ att.isPrefixOf (c :: t)) := by
      rintro ⟨-, hpre⟩
      exact h 0 (by simpa using hpre)
    rw [removeAll_cons_not att c t hnp, ih (fun i hp => h (i + 1) (by simpa using hp))]

theorem drop_append_ge (X r : List Char) :
    ∀ i, X.length ≤ i → (X ++ r).drop i = r.drop (i - X.length) := by
  induction X with
  | nil => intro i _; simp
  | cons c t ih =>
    intro i hi
    cases i with
    | zero => simp at hi
    | succ j =>
      rw [List.cons_append, List.drop_succ_cons, ih j (by simpa using hi)]
      simp

theorem drop_append_lt (X r : List Char) (i : Nat) (hi : i ≤ X.length) :
    (X ++ r).drop i = X.drop i ++ r := by
  rw [List.drop_append_of_le_length hi]

/-- Within the body of a well-formed bracketed attribute no `[` occurs. -/
theorem attrText_body_noBracket (n v : List Char)
    (hn : wordHyphenStr n) (hv : attrValueOk v) :
    '[' ∉ (n ++ '=' :: '"' :: v ++ ['"', ']']) := by
  intro hm
  rcases List.mem_append.mp hm with h | h
  · rcases List.mem_append.mp h with h | h
    · have := hn.2 '[' h
      simp [isWordHyphen, isWordCh] at this
    · rcases List.mem_cons.mp h with h1 | h
      · exact absurd h1 (by decide)
      rcases List.mem_cons.mp h with h1 | h
      · exact absurd h1 (by decide)
      · exact (hv.2 '[' h).2.2.1 rfl
  · simp at h

theorem wh_prefix_name_eq :
    ∀ n n1 : List Char, (∀ c ∈ n, isWordHyphen c = true) →
      (∀ c ∈ n1, isWordHyphen c = true) → ∀ z z1 : List Char,
      (n ++ '=' :: z).isPrefixOf (n1 ++ '=' :: z1) = true → n = n1 := by
  intro n
  induction n with
  | nil =>
    intro n1 _ hn1 z z1 hp
    cases n1 with
    | nil => rfl
    | cons b t =>
      simp only [List.nil_append, List.cons_append, List.isPrefixOf,
        Bool.and_eq_true, beq_iff_eq] at hp
      have := hn1 b (by simp)
      rw [← hp.1] at this
      simp [isWordHyphen, isWordCh] at this
  | cons a n2 ih =>
    intro n1 hn hn1 z z1 hp
    cases n1 with
    | nil =>
      simp only [List.cons_append, List.nil_append, List.isPrefixOf,
        Bool.and_eq_true, beq_iff_eq] at hp
      have := hn a (by simp)
      rw [hp.1] at this
      simp [isWordHyphen, isWordCh] at this
    | cons b t =>
      simp only [List.cons_append, List.isPrefixOf, Bool.and_eq_true,
        beq_iff_eq] at hp
      have hab : a = b := hp.1
      have := ih t (fun c hc => hn c (by simp [hc]))
        (fun c hc => hn1 c (by simp [hc])) z z1 (by
          have := hp.2
          simpa using this)
      rw [hab, this]

/-- A well-formed bracketed attribute text with a fresh name occurs nowhere
in the concatenation of bracketed attributes with other names. -/
theorem noOccur_attrText (n v : List Char) (hn : wordHyphenStr n)
    (_ : attrValueOk v) :
    ∀ tl : List (List Char × List Char),
      (∀ nv ∈ tl, wordHyphenStr nv.1) → (∀ nv ∈ tl, attrValueOk nv.2) →
      (∀ nv ∈ tl, nv.1 ≠ n) →
      ∀ i, ¬((attrText n v).isPrefixOf ((attrsConcat tl).drop i) = true) := by
  intro tl
  induction tl with
  | nil =>
    intro _ _ _ i hp
    have : attrsConcat ([] : List (List Char × List Char)) = [] := rfl
    rw [this, List.drop_nil] at hp
    rw [show attrText n v = '[' :: (n ++ '=' :: '"' :: v ++ ['"', ']']) from by
      simp [attrText]] at hp
    simp [List.isPrefixOf] at hp
  | cons nv tl2 ih =>
    intro hns hvs hne i hp
    obtain ⟨n1, v1⟩ := nv
    have hn1 := hns (n1, v1) (by simp)
    have hv1 := hvs (n1, v1) (by simp)
    rw [attrsConcat_cons] at hp
    by_cases hi : i < (attrText n1 v1).length
    · rw [drop_append_lt _ _ i (le_of_lt hi)] at hp
      cases i with
      | zero =>
        rw [List.drop_zero] at hp
        have hshape : attrText n1 v1 ++ attrsConcat tl2 =
            '[' :: (n1 ++ '=' :: ('"' :: v1 ++ ['"', ']'] ++ attrsConcat tl2)) := by
          simp [attrText]
        have hshape2 : attrText n v =
            '[' :: (n ++ '=' :: ('"' :: v ++ ['"', ']'])) := by
          simp [attrText]
        rw [hshape, hshape2] at hp
        simp only [List.isPrefixOf, Bool.and_eq_true, beq_iff_eq] at hp
        have heq := wh_prefix_name_eq n n1 hn.2 hn1.2 _ _ hp.2
        exact hne (n1, v1) (by simp) (heq ▸ rfl)
      | succ j =>
        have hbody : attrText n1 v1 = '[' :: (n1 ++ '=' :: '"' :: v1 ++ ['"', ']']) := by
          simp [attrText]
        rw [hbody, List.drop_succ_cons] at hp
        have hjlen : j < (n1 ++ '=' :: '"' :: v1 ++ ['"', ']']).length := by
          rw [length_attrText] at hi
          have h2 : (n1 ++ '=' :: '"' :: v1 ++ ['"', ']']).length =
              n1.length + (v1.length + 4) := by simp
          omega
        have hnb : '[' ∉ (n1 ++ '=' :: '"' :: v1 ++ ['"', ']']) :=
          attrText_body_noBracket n1 v1 hn1 hv1
        cases hdp : (n1 ++ '=' :: '"' :: v1 ++ ['"', ']']).drop j with
        | nil =>
          have hlen0 := congrArg List.length hdp
          rw [List.length_drop] at hlen0
          simp only [List.length_nil] at hlen0
          omega
        | cons c2 t2 =>
          have hc2 : c2 ∈ (n1 ++ '=' :: '"' :: v1 ++ ['"', ']']) := by
            have hsub := List.drop_subset j (n1 ++ '=' :: '"' :: v1 ++ ['"', ']'])
            rw [hdp] at hsub
            exact hsub (by simp)
          have hc2ne : c2 ≠ '[' := fun hc => hnb (hc ▸ hc2)
          rw [hdp] at hp
          rw [show attrText n v = '[' :: (n ++ '=' :: '"' :: v ++ ['"', ']']) from by
            simp [attrText]] at hp
          rw [List.cons_append] at hp
          simp only [List.isPrefixOf, Bool.and_eq_true, beq_iff_eq] at hp
          exact hc2ne hp.1.symm
    · push_neg at hi
      rw [drop_append_ge _ _ i hi] at hp
      exact ih (fun nv hm => hns nv (by simp [hm]))
        (fun nv hm => hvs nv (by simp [hm]))
        (fun nv hm => hne nv (by simp [hm])) _ hp

/-- Removing every matched attribute text from a supported selector, in
match order, leaves exactly the attribute-free base. -/
theorem strip_fold (ps : List (List Char × List Char)) :
    ∀ base : List Char, '[' ∉ base →
      (∀ nv ∈ ps, wordHyphenStr nv.1) → (∀ nv ∈ ps, attrValueOk nv.2) →
      (ps.map Prod.fst).Nodup →
      ps.foldl (fun acc nv => removeAll (attrText nv.1 nv.2) acc)
        (base ++ attrsConcat ps) = base := by
  induction ps with
  | nil => intro base _ _ _ _; simp [attrsConcat]
  | cons nv tl ih =>
    intro base hb hn hv hnd
    obtain ⟨n, v⟩ := nv
    have hn0 := hn (n, v) (by simp)
    have hv0 := hv (n, v) (by simp)
    rw [attrsConcat_cons, List.foldl_cons]
    rw [List.map_cons] at hnd
    have hnd2 := List.nodup_cons.mp hnd
    have hstep : removeAll (attrText n v)
        (base ++ (attrText n v ++ attrsConcat tl)) = base ++ attrsConcat tl := by
      rw [removeAll_append_noBracket _ _ _
        ⟨(n ++ '=' :: '"' :: v) ++ ['"', ']'], by simp [attrText]⟩ hb,
        removeAll_prefix _ _ (by simp [attrText]),
        removeAll_noOccur _ (by simp [attrText]) _
          (noOccur_attrText n v hn0 hv0 tl
            (fun nv hm => hn nv (by simp [hm]))
            (fun nv hm => hv nv (by simp [hm]))
            (fun nv hm heq => hnd2.1 (by
              rw [← heq]
              exact List.mem_map.mpr ⟨nv, hm, rfl⟩)))]
    rw [hstep]
    exact ih base hb (fun nv hm => hn nv (by simp [hm]))
      (fun nv hm => hv nv (by simp [hm])) hnd2.2

theorem clsConcat_cons (cl : List Char) (cls : List (List Char)) :
    clsConcat (cl :: cls) = '.' :: cl ++ clsConcat cls := rfl

theorem mem_clsConcat (cls : List (List Char)) (c : Char) :
    c ∈ clsConcat cls → c = '.' ∨ ∃ cl ∈ cls, c ∈ cl := by
  induction cls with
  | nil => intro h; simp [clsConcat] at h
  | cons cl cls2 ih =>
    intro h
    rw [clsConcat_cons] at h
    rcases List.mem_cons.mp h with h | h
    · exact Or.inl h
    rcases List.mem_append.mp h with h | h
    · exact Or.inr ⟨cl, by simp, h⟩
    · rcases ih h with h | ⟨cl2, hm, hc⟩
      · exact Or.inl h
      · exact Or.inr ⟨cl2, by simp [hm], hc⟩

theorem mem_idPart (ident : Option (List Char)) (c : Char) :
    c ∈ idPart ident → c = '#' ∨ ∃ i, ident = some i ∧ c ∈ i := by
  cases ident with
  | none => intro h; simp [idPart] at h
  | some i =>
    intro h
    rcases List.mem_cons.mp h with h | h
    · exact Or.inl h
    · exact Or.inr ⟨i, rfl, h⟩

/-- The attribute-free part of a supported selector contains no bracket. -/
theorem base_noBracket (tag : List Char) (ident : Option (List Char))
    (cls : List (List Char)) (htag : wordHyphenStr tag)
    (hid : ∀ i, ident = some i → wordHyphenStr i)
    (hcls : ∀ cl ∈ cls, wordHyphenStr cl) :
    '[' ∉ (tag ++ idPart ident ++ clsConcat cls) := by
  intro hm
  have hwh : isWordHyphen '[' = false := by decide
  rcases List.mem_append.mp hm with h | h
  · rcases List.mem_append.mp h with h | h
    · rw [htag.2 '[' h] at hwh
      simp at hwh
    · rcases mem_idPart ident '[' h with h | ⟨i, hi, hc⟩
      · exact absurd h (by decide)
      · rw [(hid i hi).2 '[' hc] at hwh
        simp at hwh
  · rcases mem_clsConcat cls '[' h with h | ⟨cl, hm2, hc⟩
    · exact absurd h (by decide)
    · rw [(hcls cl hm2).2 '[' hc] at hwh
      simp at hwh

theorem headIsWordHyphen_idCls (ident : Option (List Char))
    (cls : List (List Char)) :
    ∀ c t, idPart ident ++ clsConcat cls = c :: t → isWordHyphen c = false := by
  intro c t h
  cases ident with
  | some i =>
    simp only [idPart, List.cons_append, List.cons.injEq] at h
    rw [← h.1]
    decide
  | none =>
    simp only [idPart, List.nil_append] at h
    cases cls with
    | nil => simp [clsConcat] at h
    | cons cl cls2 =>
      rw [clsConcat_cons] at h
      injection h with h1 _
      rw [← h1]
      decide

/-- The tag-name regex matches exactly the tag of a supported selector. -/
theorem takeWhile_base (tag : List Char) (ident : Option (List Char))
    (cls : List (List Char)) (htag : wordHyphenStr tag) :
    (tag ++ (idPart ident ++ clsConcat cls)).takeWhile isWordHyphen = tag := by
  rw [takeWhile_all_append _ _ _ htag.2,
    takeWhile_head_not _ _ (headIsWordHyphen_idCls ident cls)]
  simp

theorem replaceFirst_prefix (pat rest : List Char) (hp : pat ≠ []) :
    replaceFirst pat [] (pat ++ rest) = rest := by
  cases hpat : pat with
  | nil => exact absurd hpat hp
  | cons a p2 =>
    subst hpat
    show replaceFirst (a :: p2) [] (a :: (p2 ++ rest)) = rest
    rw [show replaceFirst (a :: p2) [] (a :: (p2 ++ rest)) =
      if (a :: p2 : List Char) = [] then [] ++ a :: (p2 ++ rest)
      else if (a :: p2).isPrefixOf (a :: (p2 ++ rest)) then
        [] ++ (a :: (p2 ++ rest)).drop (a :: p2).length
      else a :: replaceFirst (a :: p2) [] (p2 ++ rest) from rfl]
    rw [if_neg hp]
    have hpre : (a :: p2).isPrefixOf (a :: (p2 ++ rest)) = true := by
      rw [show a :: (p2 ++ rest) = (a :: p2) ++ rest from rfl,
        List.isPrefixOf_iff_prefix]
      exact List.prefix_append (a :: p2) rest
    rw [if_pos hpre, List.nil_append,
      show a :: (p2 ++ rest) = (a :: p2) ++ rest from rfl,
      List.drop_left]

/-- The head of the class-token run is a dot (never a word character). -/
theorem clsConcat_head_not_wh (cls : List (List Char)) :
    ∀ c t, clsConcat cls = c :: t → isWordHyphen c = false := by
  intro c t h
  cases cls with
  | nil => simp [clsConcat] at h
  | cons cl cls2 =>
    rw [clsConcat_cons] at h
    injection h with h1 _
    rw [← h1]
    decide

/-- The id regex never matches a hash-free string. -/
theorem findIdMatch_none (l : List Char) (h : ∀ c ∈ l, c ≠ '#') :
    findIdMatch l = none := by
  induction l with
  | nil => rfl
  | cons c t ih =>
    show (if c = '#' then
        if t.takeWhile isWordHyphen = [] then findIdMatch t
        else some (t.takeWhile isWordHyphen)
      else findIdMatch t) = none
    rw [if_neg (h c (by simp)), ih (fun c2 hc2 => h c2 (by simp [hc2]))]

/-- The id regex on the tag-stripped remainder of a supported selector. -/
theorem findIdMatch_idCls (ident : Option (List Char))
    (cls : List (List Char)) (hid : ∀ i, ident = some i → wordHyphenStr i)
    (hcls : ∀ cl ∈ cls, wordHyphenStr cl) :
    findIdMatch (idPart ident ++ clsConcat cls) = ident := by
  cases ident with
  | some i =>
    have hi := hid i rfl
    show findIdMatch ('#' :: (i ++ clsConcat cls)) = some i
    have hrun : (i ++ clsConcat cls).takeWhile isWordHyphen = i := by
      rw [takeWhile_all_append _ _ _ hi.2,
        takeWhile_head_not _ _ (clsConcat_head_not_wh cls)]
      simp
    show (if ('#' : Char) = '#' then
        if (i ++ clsConcat cls).takeWhile isWordHyphen = [] then
          findIdMatch (i ++ clsConcat cls)
        else some ((i ++ clsConcat cls).takeWhile isWordHyphen)
      else findIdMatch (i ++ clsConcat cls)) = some i
    rw [if_pos rfl, hrun, if_neg hi.1]
  | none =>
    show findIdMatch ([] ++ clsConcat cls) = none
    rw [List.nil_append]
    refine findIdMatch_none _ (fun c hc => ?_)
    rcases mem_clsConcat cls c hc with h | ⟨cl, hm2, hcm⟩
    · rw [h]; decide
    · have hwh := (hcls cl hm2).2 c hcm
      intro h2
      rw [h2] at hwh
      exact absurd hwh (by decide)

theorem collectClassesF_succ_cons (f : Nat) (c : Char) (t : List Char) :
    collectClassesF (f + 1) (c :: t) =
      if c = '.' then
        if t.takeWhile isWordHyphen = [] then collectClassesF f t
        else t.takeWhile isWordHyphen ::
          collectClassesF f (t.drop (t.takeWhile isWordHyphen).length)
      else collectClassesF f t := rfl

theorem collectClassesF_stable (f1 : Nat) :
    ∀ (s : List Char) (f2 : Nat), s.length < f1 → s.length < f2 →
      collectClassesF f1 s = collectClassesF f2 s := by
  induction f1 with
  | zero => intro s f2 h1 _; omega
  | succ n ih =>
    intro s f2 h1 h2
    cases s with
    | nil =>
      cases f2 with
      | zero => omega
      | succ m => rfl
    | cons c t =>
      cases f2 with
      | zero => omega
      | succ m =>
        rw [collectClassesF_succ_cons, collectClassesF_succ_cons]
        have hdl : (t.drop (t.takeWhile isWordHyphen).length).length ≤ t.length := by
          rw [List.length_drop]
          omega
        by_cases hc : c = '.'
        · rw [if_pos hc, if_pos hc]
          by_cases hr : t.takeWhile isWordHyphen = []
          · rw [if_pos hr, if_pos hr,
              ih t m (by simp at h1 ⊢; omega) (by simp at h2 ⊢; omega)]
          · rw [if_neg hr, if_neg hr,
              ih _ m (by simp at h1 ⊢; omega) (by simp at h2 ⊢; omega)]
        · rw [if_neg hc, if_neg hc,
            ih t m (by simp at h1 ⊢; omega) (by simp at h2 ⊢; omega)]

theorem collectClasses_skip (p : List Char) (hp : ∀ c ∈ p, c ≠ '.') :
    ∀ s : List Char, collectClasses (p ++ s) = collectClasses s := by
  induction p with
  | nil => intro s; rfl
  | cons c p2 ih =>
    intro s
    show collectClassesF ((c :: (p2 ++ s)).length + 1) (c :: (p2 ++ s)) = _
    rw [show (c :: (p2 ++ s)).length + 1 = (p2 ++ s).length + 1 + 1 from by simp,
      collectClassesF_succ_cons, if_neg (hp c (by simp))]
    exact ih (fun c2 hc2 => hp c2 (by simp [hc2])) s

theorem collectClasses_cons_class (cl : List Char) (rest : List Char)
    (hcl : wordHyphenStr cl)
    (hrest : ∀ c t, rest = c :: t → isWordHyphen c = false) :
    collectClasses ('.' :: (cl ++ rest)) = cl :: collectClasses rest := by
  have hrun : (cl ++ rest).takeWhile isWordHyphen = cl := by
    rw [takeWhile_all_append _ _ _ hcl.2, takeWhile_head_not _ _ hrest]
    simp
  show collectClassesF (('.' :: (cl ++ rest)).length + 1) ('.' :: (cl ++ rest)) = _
  rw [show ('.' :: (cl ++ rest)).length + 1 = (cl ++ rest).length + 1 + 1 from by
    simp, collectClassesF_succ_cons, if_pos rfl, hrun, if_neg hcl.1,
    List.drop_left]
  rw [collectClassesF_stable ((cl ++ rest).length + 1) rest (rest.length + 1)
    (by simp; omega) (by omega)]
  rfl

/-- The class regex collects exactly the class tokens of a supported
selector's tag-stripped remainder. -/
theorem collectClasses_idCls (ident : Option (List Char))
    (cls : List (List Char)) (hid : ∀ i, ident = some i → wordHyphenStr i)
    (hcls : ∀ cl ∈ cls, wordHyphenStr cl) :
    collectClasses (idPart ident ++ clsConcat cls) = cls := by
  have hskip : collectClasses (idPart ident ++ clsConcat cls) =
      collectClasses (clsConcat cls) := by
    refine collectClasses_skip (idPart ident) (fun c hc => ?_) (clsConcat cls)
    rcases mem_idPart ident c hc with h | ⟨i, hi, hcm⟩
    · rw [h]; decide
    · have hwh := (hid i hi).2 c hcm
      intro h2
      rw [h2] at hwh
      exact absurd hwh (by decide)
  rw [hskip]
  clear hskip hid
  induction cls with
  | nil => rfl
  | cons cl cls2 ih =>
    rw [clsConcat_cons,
      show ('.' : Char) :: cl ++ clsConcat cls2 = '.' :: (cl ++ clsConcat cls2)
        from rfl,
      collectClasses_cons_class cl (clsConcat cls2) (hcls cl (by simp))
        (clsConcat_head_not_wh cls2),
      ih (fun cl2 hm => hcls cl2 (by simp [hm]))]

theorem assignKV_fresh {α β : Type} [DecidableEq α] (m : List (α × β))
    (k : α) (v : β) (h : k ∉ m.map Prod.fst) :
    assignKV m k v = m ++ [(k, v)] := by
  induction m with
  | nil => rfl
  | cons kv t ih =>
    obtain ⟨a, b⟩ := kv
    simp only [List.map_cons, List.mem_cons, not_or] at h
    show (if a = k then (a, v) :: t else (a, b) :: assignKV t k v) = _
    rw [if_neg (fun hh => h.1 hh.symm), ih h.2]
    rfl

/-- Replaying fresh assignments with pairwise distinct keys is plain list
concatenation. -/
theorem foldAssign_fresh {α β : Type} [DecidableEq α] :
    ∀ (ps m : List (α × β)), (∀ k ∈ ps.map Prod.fst, k ∉ m.map Prod.fst) →
      (ps.map Prod.fst).Nodup → foldAssign m ps = m ++ ps := by
  intro ps
  induction ps with
  | nil => intro m _ _; simp [foldAssign]
  | cons kv t ih =>
    intro m hfresh hnd
    obtain ⟨k, v⟩ := kv
    rw [foldAssign_cons, assignKV_fresh m k v (hfresh k (by simp))]
    rw [List.map_cons] at hnd
    have hnd2 := List.nodup_cons.mp hnd
    rw [ih (m ++ [(k, v)]) (fun k2 hk2 => by
      simp only [List.map_append, List.mem_append, List.map_cons,
        List.map_nil, List.mem_singleton, not_or]
      constructor
      · exact hfresh k2 (by simp [hk2])
      · intro hkk
        exact hnd2.1 (hkk ▸ hk2)) hnd2.2]
    simp

/-- The parse of a supported selector, component by component. -/
theorem selectorToComponentsL_mkSelector (tag : List Char)
    (ident : Option (List Char)) (cls : List (List Char))
    (attrs : List (List Char × List Char))
    (htag : wordHyphenStr tag)
    (hid : ∀ i, ident = some i → wordHyphenStr i)
    (hcls : ∀ cl ∈ cls, wordHyphenStr cl)
    (hnames : ∀ nv ∈ attrs, wordHyphenStr nv.1)
    (hvals : ∀ nv ∈ attrs, attrValueOk nv.2)
    (hnodup : (attrs.map Prod.fst).Nodup) :
    selectorToComponentsL (mkSelectorL tag ident cls attrs) =
      ⟨String.mk tag, ident.map String.mk, cls.map String.mk,
       attrs.map (fun nv => (String.mk nv.1, String.mk nv.2))⟩ := by
  have hb : '[' ∉ (tag ++ idPart ident ++ clsConcat cls) :=
    base_noBracket tag ident cls htag hid hcls
  have hmk : mkSelectorL tag ident cls attrs =
      (tag ++ idPart ident ++ clsConcat cls) ++ attrsConcat attrs := rfl
  have hattr : attrMatchesOf (mkSelectorL tag ident cls attrs) =
      attrs.map (fun nv => ⟨attrText nv.1 nv.2, nv.1, some nv.2, none⟩) := by
    rw [attrMatchesOf, hmk]
    exact collectAttrs_structured attrs _ hb hnames hvals
  have hstrip : strippedOf (mkSelectorL tag ident cls attrs) =
      tag ++ idPart ident ++ clsConcat cls := by
    rw [strippedOf, hattr, hmk, List.foldl_map]
    exact strip_fold attrs _ hb hnames hvals hnodup
  have htagrun : tagRunOf (mkSelectorL tag ident cls attrs) = tag := by
    rw [tagRunOf, hstrip, List.append_assoc]
    exact takeWhile_base tag ident cls htag
  have hafter : afterTagOf (mkSelectorL tag ident cls attrs) =
      idPart ident ++ clsConcat cls := by
    rw [afterTagOf, htagrun, if_neg htag.1, hstrip, List.append_assoc]
    exact replaceFirst_prefix tag _ htag.1
  have hattrfold :
      (attrMatchesOf (mkSelectorL tag ident cls attrs)).foldl
        (fun m mt => assignKV m (String.mk mt.name)
          (String.mk (valueOfMatch mt))) [] =
        attrs.map (fun nv => (String.mk nv.1, String.mk nv.2)) := by
    rw [hattr, List.foldl_map]
    have hext : attrs.foldl
        (fun m nv => assignKV m (String.mk nv.1)
          (String.mk (valueOfMatch ⟨attrText nv.1 nv.2, nv.1, some nv.2, none⟩)))
        [] =
        attrs.foldl (fun m nv => assignKV m (String.mk nv.1) (String.mk nv.2))
          [] := by
      refine List.foldl_ext _ _ [] (fun b nv hm => ?_)
      have hv := hvals nv hm
      rw [show valueOfMatch ⟨attrText nv.1 nv.2, nv.1, some nv.2, none⟩ =
        if nv.2 = [] then [] else nv.2 from rfl, if_neg hv.1]
    rw [hext]
    have hfold : attrs.foldl
        (fun m nv => assignKV m (String.mk nv.1) (String.mk nv.2)) [] =
        foldAssign [] (attrs.map (fun nv => (String.mk nv.1, String.mk nv.2))) := by
      rw [foldAssign, List.foldl_map]
    rw [hfold, foldAssign_fresh _ [] (by simp) ?_]
    · simp
    · have hmapmap : (attrs.map
          (fun nv => (String.mk nv.1, String.mk nv.2))).map Prod.fst =
          (attrs.map Prod.fst).map String.mk := by
        rw [List.map_map, List.map_map]
        rfl
      rw [hmapmap]
      exact hnodup.map (fun a b hab => by
        injection hab)
  show Components.mk _ _ _ _ = _
  rw [Components.mk.injEq]
  refine ⟨?_, ?_, ?_, ?_⟩
  · rw [htagrun, if_neg htag.1]
  · rw [hafter, findIdMatch_idCls ident cls hid hcls]
  · rw [hafter, collectClasses_idCls ident cls hid hcls]
  · exact hattrfold

end Elementool

open Elementool

/-- C4: `objectToElement` never propagates an exception: its result always
equals `Except.ok` of the specification value `objectToElementSpec`, which is
`none` (JavaScript `undefined`) whenever the argument lacks a string-valued
`make`, `draw` or `math` property (including `null`, `undefined` and
primitive receivers, whose property access throws inside the `try`) or the
selected element constructor throws, and the constructed element otherwise. -/
theorem c4_objectToElement_swallows_errors :
    ∀ {E : Type} (mkF drF mtF : String → Except Unit E) (obj : JsValue),
    objectToElement mkF drF mtF obj = .ok (objectToElementSpec mkF drF mtF obj) := by
  intro E mkF drF mtF obj
  cases obj with
  | objV mk dr mt =>
    cases hm : mk.getD JsValue.undefV <;>
      cases hd : dr.getD JsValue.undefV <;>
        cases ht : mt.getD JsValue.undefV <;>
          simp [objectToElement, objectToElementSpec, getProp, strOfVal,
            Bind.bind, Except.bind, hm, hd, ht, swallow_map_some, swallow_ok,
            Pure.pure, Except.pure]
  | undefV => rfl
  | nullV => rfl
  | strV s => rfl
  | numV n => rfl
  | boolV b => rfl

/-- C6: `append` with an array appends exactly the members that are
`Element` instances, in array order (for fresh, distinct members this is
plain concatenation onto the child list), skips all other members without
error, appends a single `Element` argument directly, and leaves the child
list unchanged for any other argument type. -/
theorem c6_append_ignores_non_elements :
    ∀ {E : Type} [DecidableEq E] (children : List E) (xs : List (DomItem E))
      (e : E),
    append children (.otherA) = children ∧
    (e ∉ children → append children (.elemA e) = children ++ [e]) ∧
    append children (.arrA xs) = (elemMembers xs).foldl appendChildOp children ∧
    ((elemMembers xs).Nodup → (∀ x ∈ elemMembers xs, x ∉ children) →
      append children (.arrA xs) = children ++ elemMembers xs) := by
  intro E _ children xs e
  refine ⟨rfl, ?_, append_arrA_foldl xs children, ?_⟩
  · intro he
    simp [append, appendChildOp, List.erase_of_not_mem he]
  · intro hnd hfresh
    rw [append_arrA_foldl xs children]
    exact foldl_appendChildOp_fresh (elemMembers xs) children hnd hfresh

/-- Witness for C6 at concrete inputs: the array branch skips the non-element
member and appends the two elements in order, and the single-element branch
appends the fresh element. -/
theorem c6_append_ignores_non_elements_witness :
    (4 : Nat) ∉ ([1] : List Nat) ∧
    (elemMembers [DomItem.elemI 2, DomItem.otherI, DomItem.elemI 3]).Nodup ∧
    (∀ x ∈ elemMembers [DomItem.elemI 2, DomItem.otherI, DomItem.elemI 3],
      x ∉ ([1] : List Nat)) ∧
    append [1] (AppendArg.elemA 4) = [1, 4] ∧
    append [1] (AppendArg.arrA [DomItem.elemI 2, DomItem.otherI, DomItem.elemI 3]) =
      [1, 2, 3] := by
  refine ⟨by decide, by decide, by decide, ?_, ?_⟩
  · exact (c6_append_ignores_non_elements [1]
      [DomItem.elemI 2, DomItem.otherI, DomItem.elemI 3] 4).2.1 (by decide)
  · exact (c6_append_ignores_non_elements [1]
      [DomItem.elemI 2, DomItem.otherI, DomItem.elemI 3] 4).2.2.2 (by decide)
      (by decide)

/-- C1 (code bug): the claim says that for every input whose `>` or `+`
combinators outside bracketed attribute selectors exist, `elementDefinition`
is the trimmed substring after the last such combinator and the part before
it becomes `parentElement` (for `>`) or `siblingElement` (for `+`).  On
`"a > b[abcd][x+y]"` the only combinator outside brackets is the `>` at
index 2, so the claim predicts `elementDefinition = "b[abcd][x+y]"` and
`parentElement = "a"`.  The code instead returns `elementDefinition = "y]"`
and `siblingElement = "a > b[abcd][x"`: the placeholder pass matched
`[abcd]`, saved `lastIndex = 11`, and after the six-character match was
replaced by the five-character `ATTR0` the following `[x+y]` begins at index
10 < 11 and is never matched, so the `+` inside it is taken as the last
combinator.  This contradicts the source's stated purpose of the placeholder
pass ("to avoid confusion with combinators"). -/
theorem c1_resolveRelativeElement_combinator_bug :
    resolveRelativeElement "a > b[abcd][x+y]" =
      ⟨"y]", none, some "a > b[abcd][x"⟩ ∧
    (resolveRelativeElement "a > b[abcd][x+y]").elementDefinition ≠
      "b[abcd][x+y]" ∧
    (resolveRelativeElement "a > b[abcd][x+y]").parentElement ≠ some "a" := by
  refine ⟨by decide, by decide, by decide⟩

/-- C9 (code bug): the claim says a `>` or `+` occurring only inside a
bracketed attribute selector is never treated as a combinator and every
bracketed segment reappears verbatim in the output.  On `"x[abcd][a>b]"` the
only `>` lies inside `[a>b]`, yet the code returns
`elementDefinition = "b]"` and `parentElement = "x[abcd][a"`: the placeholder
pass replaced `[abcd]` with the shorter `ATTR0` while keeping `lastIndex`
measured in the old string, skipped past the `[` of `[a>b]`, and left that
segment unprotected, contradicting the pass's stated purpose. -/
theorem c9_resolveRelativeElement_bracket_protection_bug :
    resolveRelativeElement "x[abcd][a>b]" =
      ⟨"b]", some "x[abcd][a", none⟩ ∧
    (resolveRelativeElement "x[abcd][a>b]").elementDefinition ≠
      "x[abcd][a>b]" ∧
    (resolveRelativeElement "x[abcd][a>b]").parentElement ≠ none := by
  refine ⟨by decide, by decide, by decide⟩

/-- C8: every path-instruction method sets the `d` attribute to the previous
value (empty when the attribute was absent) followed by a single space and
the new command, and returns the element (modelled by returning the updated
state). -/
theorem c8_pathInstructions_append_only :
    (∀ (x y : Int) (d : Option String), pathInstructions.moveTo x y d =
      some (pathInstructions.dVal d ++ " " ++
        ("M" ++ toString x ++ "," ++ toString y))) ∧
    (∀ (x y : Int) (d : Option String), pathInstructions.moveToRelative x y d =
      some (pathInstructions.dVal d ++ " " ++
        ("m" ++ toString x ++ "," ++ toString y))) ∧
    (∀ (x y : Int) (d : Option String), pathInstructions.lineTo x y d =
      some (pathInstructions.dVal d ++ " " ++
        ("L" ++ toString x ++ "," ++ toString y))) ∧
    (∀ (x y : Int) (d : Option String), pathInstructions.lineToRelative x y d =
      some (pathInstructions.dVal d ++ " " ++
        ("l" ++ toString x ++ "," ++ toString y))) ∧
    (∀ (x : Int) (d : Option String), pathInstructions.horizontalLineTo x d =
      some (pathInstructions.dVal d ++ " " ++ ("H" ++ toString x))) ∧
    (∀ (x : Int) (d : Option String),
      pathInstructions.horizontalLineToRelative x d =
      some (pathInstructions.dVal d ++ " " ++ ("h" ++ toString x))) ∧
    (∀ (y : Int) (d : Option String), pathInstructions.verticalLineTo y d =
      some (pathInstructions.dVal d ++ " " ++ ("V" ++ toString y))) ∧
    (∀ (y : Int) (d : Option String),
      pathInstructions.verticalLineToRelative y d =
      some (pathInstructions.dVal d ++ " " ++ ("v" ++ toString y))) ∧
    (∀ (rx ry : Int) (f1 f2 f3 : JsArg) (x y : Int) (d : Option String),
      pathInstructions.arcTo rx ry f1 f2 f3 x y d =
      some (pathInstructions.dVal d ++ " " ++
        ("A" ++ toString rx ++ "," ++ toString ry ++ " " ++
          jsArgStr (pathInstructions.arcShuffle f1 f2 f3).1 ++ " " ++
          jsArgStr (pathInstructions.arcShuffle f1 f2 f3).2.1 ++ "," ++
          jsArgStr (pathInstructions.arcShuffle f1 f2 f3).2.2 ++ " " ++
          toString x ++ "," ++ toString y))) ∧
    (∀ (rx ry : Int) (f1 f2 f3 : JsArg) (x y : Int) (d : Option String),
      pathInstructions.arcToRelative rx ry f1 f2 f3 x y d =
      some (pathInstructions.dVal d ++ " " ++
        ("a" ++ toString rx ++ "," ++ toString ry ++ " " ++
          jsArgStr (pathInstructions.arcShuffle f1 f2 f3).1 ++ " " ++
          jsArgStr (pathInstructions.arcShuffle f1 f2 f3).2.1 ++ "," ++
          jsArgStr (pathInstructions.arcShuffle f1 f2 f3).2.2 ++ " " ++
          toString x ++ "," ++ toString y))) ∧
    (∀ d : Option String, pathInstructions.closePath d =
      some (pathInstructions.dVal d ++ " " ++ "Z")) ∧
    (∀ (x1 y1 : Int) (x y : Option Int) (d : Option String),
      pathInstructions.quadraticBezierCurveTo x1 y1 x y d =
      some (pathInstructions.dVal d ++ " " ++
        (if optFalsy x ∧ optFalsy y then
          "T" ++ toString x1 ++ "," ++ toString y1
        else
          "Q" ++ toString x1 ++ "," ++ toString y1 ++ " " ++
            optNumStr x ++ "," ++ optNumStr y))) ∧
    (∀ (x1 y1 : Int) (x y : Option Int) (d : Option String),
      pathInstructions.quadraticBezierCurveToRelative x1 y1 x y d =
      some (pathInstructions.dVal d ++ " " ++
        (if optFalsy x ∧ optFalsy y then
          "t" ++ toString x1 ++ "," ++ toString y1
        else
          "q" ++ toString x1 ++ "," ++ toString y1 ++ " " ++
            optNumStr x ++ "," ++ optNumStr y))) ∧
    (∀ (x1 y1 x2 y2 : Int) (x y : Option Int) (d : Option String),
      pathInstructions.cubicBezierCurveTo x1 y1 x2 y2 x y d =
      some (pathInstructions.dVal d ++ " " ++
        (if optFalsy x ∧ optFalsy y then
          "S" ++ toString x2 ++ "," ++ toString y2
        else
          "C" ++ toString x1 ++ "," ++ toString y1 ++ " " ++
            toString x2 ++ "," ++ toString y2 ++ " " ++
            optNumStr x ++ "," ++ optNumStr y))) ∧
    (∀ (x1 y1 x2 y2 : Int) (x y : Option Int) (d : Option String),
      pathInstructions.cubicBezierCurveToRelative x1 y1 x2 y2 x y d =
      some (pathInstructions.dVal d ++ " " ++
        (if optFalsy x ∧ optFalsy y then
          "s" ++ toString x2 ++ "," ++ toString y2
        else
          "c" ++ toString x1 ++ "," ++ toString y1 ++ " " ++
            toString x2 ++ "," ++ toString y2 ++ " " ++
            optNumStr x ++ "," ++ optNumStr y))) := by
  refine ⟨?_, ?_, ?_, ?_, ?_, ?_, ?_, ?_, ?_, ?_, ?_, ?_, ?_, ?_, ?_⟩
  · intro x y d
    simp only [pathInstructions.moveTo, String.append_assoc]
    rw [append_space_split " M" "M" (by decide)]
  · intro x y d
    simp only [pathInstructions.moveToRelative, String.append_assoc]
    rw [append_space_split " m" "m" (by decide)]
  · intro x y d
    simp only [pathInstructions.lineTo, String.append_assoc]
    rw [append_space_split " L" "L" (by decide)]
  · intro x y d
    simp only [pathInstructions.lineToRelative, String.append_assoc]
    rw [append_space_split " l" "l" (by decide)]
  · intro x d
    simp only [pathInstructions.horizontalLineTo, String.append_assoc]
    rw [append_space_split " H" "H" (by decide)]
  · intro x d
    simp only [pathInstructions.horizontalLineToRelative, String.append_assoc]
    rw [append_space_split " h" "h" (by decide)]
  · intro y d
    simp only [pathInstructions.verticalLineTo, String.append_assoc]
    rw [append_space_split " V" "V" (by decide)]
  · intro y d
    simp only [pathInstructions.verticalLineToRelative, String.append_assoc]
    rw [append_space_split " v" "v" (by decide)]
  · intro rx ry f1 f2 f3 x y d
    rcases hsh : pathInstructions.arcShuffle f1 f2 f3 with ⟨a1, a2, a3⟩
    simp only [pathInstructions.arcTo, hsh, String.append_assoc]
    rw [append_space_split " A" "A" (by decide)]
  · intro rx ry f1 f2 f3 x y d
    rcases hsh : pathInstructions.arcShuffle f1 f2 f3 with ⟨a1, a2, a3⟩
    simp only [pathInstructions.arcToRelative, hsh, String.append_assoc]
    rw [append_space_split " a" "a" (by decide)]
  · intro d
    simp only [pathInstructions.closePath, String.append_assoc]
    rw [show (" Z" : String) = " " ++ "Z" by decide]
  · intro x1 y1 x y d
    by_cases h : optFalsy x ∧ optFalsy y
    · simp only [pathInstructions.quadraticBezierCurveTo, if_pos h,
        String.append_assoc]
      rw [append_space_split " T" "T" (by decide)]
    · simp only [pathInstructions.quadraticBezierCurveTo, if_neg h,
        String.append_assoc]
      rw [append_space_split " Q" "Q" (by decide)]
  · intro x1 y1 x y d
    by_cases h : optFalsy x ∧ optFalsy y
    · simp only [pathInstructions.quadraticBezierCurveToRelative, if_pos h,
        String.append_assoc]
      rw [append_space_split " t" "t" (by decide)]
    · simp only [pathInstructions.quadraticBezierCurveToRelative, if_neg h,
        String.append_assoc]
      rw [append_space_split " q" "q" (by decide)]
  · intro x1 y1 x2 y2 x y d
    by_cases h : optFalsy x ∧ optFalsy y
    · simp only [pathInstructions.cubicBezierCurveTo, if_pos h,
        String.append_assoc]
      rw [append_space_split " S" "S" (by decide)]
    · simp only [pathInstructions.cubicBezierCurveTo, if_neg h,
        String.append_assoc]
      rw [append_space_split " C" "C" (by decide)]
  · intro x1 y1 x2 y2 x y d
    by_cases h : optFalsy x ∧ optFalsy y
    · simp only [pathInstructions.cubicBezierCurveToRelative, if_pos h,
        String.append_assoc]
      rw [append_space_split " s" "s" (by decide)]
    · simp only [pathInstructions.cubicBezierCurveToRelative, if_neg h,
        String.append_assoc]
      rw [append_space_split " c" "c" (by decide)]

/-- C5 counterexample: style application is not idempotent as claimed.  With
the function-valued style `color: n => toString n` (the kind of changing
value the library's own `_dynamicStyles` / `render` machinery exists for),
the first call writes `color: "0"` and a second call re-invokes the function
and overwrites it with `"1"`, so the element's style state after two calls
differs from the state after one. -/
theorem c5_applyStyles_not_idempotent :
    ((applyStylesToElement
        (applyStylesToElement ⟨[], []⟩ 0
          [("color", StyleVal.fnV (fun n => toString n))]).1
        (applyStylesToElement ⟨[], []⟩ 0
          [("color", StyleVal.fnV (fun n => toString n))]).2.1
        [("color", StyleVal.fnV (fun n => toString n))]).1).styleMap ≠
      ((applyStylesToElement ⟨[], []⟩ 0
        [("color", StyleVal.fnV (fun n => toString n))]).1).styleMap := by
  decide

/-- C5 (amended): `util.applyStylesToElement` is idempotent provided every
function-valued style returns the same string on repeated invocations (in
particular, whenever every value is a plain string): a second call with the
same styles leaves the element's style map and dynamic-style bookkeeping
exactly as the first call left them. -/
theorem c5_applyStyles_idempotent_for_stable_values :
    ∀ (e : StyledElem) (c c2 : Nat) (styles : List (String × StyleVal)),
    (e.styleMap.map Prod.fst).Nodup →
    (e.dynamicStyles.map Prod.fst).Nodup →
    (∀ p f, (p, StyleVal.fnV f) ∈ styles → ∀ i j : Nat, f i = f j) →
    (applyStylesToElement (applyStylesToElement e c styles).1 c2 styles).1 =
      (applyStylesToElement e c styles).1 := by
  intro e c c2 styles h1 h2 hconst
  simp only [applyStylesToElement]
  rw [foldl_applyStyleStep_normalized styles e c styles hconst,
    foldl_applyStyleStep_normalized styles _ c2 styles hconst]
  have hs := foldAssign_idem e.styleMap (styleAssignments styles) h1
  have hd := foldAssign_idem e.dynamicStyles (dynAssignments styles) h2
  simp only [hs, hd]

/-- Witness for C5 at a concrete input: with a constant (string-valued)
style object, applying the styles twice equals applying them once. -/
theorem c5_applyStyles_idempotent_witness :
    ((([] : List (String × String)).map Prod.fst).Nodup) ∧
    ((([] : List (String × StyleVal)).map Prod.fst).Nodup) ∧
    (∀ p f, (p, StyleVal.fnV f) ∈ [("margin-left", StyleVal.strV "1px")] →
      ∀ i j : Nat, f i = f j) ∧
    (applyStylesToElement
        (applyStylesToElement ⟨[], []⟩ 0
          [("margin-left", StyleVal.strV "1px")]).1 5
        [("margin-left", StyleVal.strV "1px")]).1 =
      (applyStylesToElement ⟨[], []⟩ 0
        [("margin-left", StyleVal.strV "1px")]).1 := by
  refine ⟨by decide, by decide, ?_, ?_⟩
  · intro p f hf i j
    simp at hf
  · exact c5_applyStyles_idempotent_for_stable_values ⟨[], []⟩ 0 5
      [("margin-left", StyleVal.strV "1px")] (by decide) (by decide)
      (by intro p f hf i j; simp at hf)

/-- C7 counterexample: `util.setAttributesOnElement` mutates its caller's
attributes object.  For a function-valued attribute the source executes
`attributes[attr] = attributes[attr]()`, so after the call the key `x` no
longer holds the function but its computed string. -/
theorem c7_setAttributes_mutates_argument :
    (setAttributesOnElement ⟨[], []⟩ 0
        [("x", AttrVal.fnV (fun _ => "1"))]).2.2 ≠
      [("x", AttrVal.fnV (fun _ => "1"))] := by
  intro h
  rw [show (setAttributesOnElement ⟨[], []⟩ 0
      [("x", AttrVal.fnV (fun _ => "1"))]).2.2 =
      [("x", AttrVal.strV "1")] from rfl] at h
  simp at h

/-- C7 (amended): `util.applyStylesToElement` never writes to its styles
argument, and `util.setAttributesOnElement` leaves its attributes argument
unchanged provided no attribute value is a function (function-valued entries
are overwritten in place with their computed strings). -/
theorem c7_arguments_not_mutated :
    ∀ (e : StyledElem) (c : Nat) (styles : List (String × StyleVal))
      (ea : AttrElem) (ca : Nat) (attrs : List (String × AttrVal)),
    (applyStylesToElement e c styles).2.2 = styles ∧
    ((∀ kv ∈ attrs, isStrAttr kv.2 = true) →
      (setAttributesOnElement ea ca attrs).2.2 = attrs) := by
  intro e c styles ea ca attrs
  constructor
  · exact foldl_applyStyleStep_styles styles (e, c, styles)
  · intro hstr
    induction attrs generalizing ea ca with
    | nil => rfl
    | cons kv t ih =>
      obtain ⟨k, v⟩ := kv
      cases v with
      | strV s =>
        simp only [setAttributesOnElement]
        rw [ih _ _ (fun kv hm => hstr kv (List.mem_cons_of_mem _ hm))]
      | fnV f =>
        exact absurd (hstr (k, .fnV f) (by simp)) (by simp [isStrAttr])

/-- Witness for C7 at concrete inputs: a string-valued styles object and a
string-valued attributes object are returned unchanged. -/
theorem c7_arguments_not_mutated_witness :
    (∀ kv ∈ [("a", AttrVal.strV "b")], isStrAttr kv.2 = true) ∧
    (applyStylesToElement ⟨[], []⟩ 0 [("color", StyleVal.strV "red")]).2.2 =
      [("color", StyleVal.strV "red")] ∧
    (setAttributesOnElement ⟨[], []⟩ 0 [("a", AttrVal.strV "b")]).2.2 =
      [("a", AttrVal.strV "b")] := by
  refine ⟨?_, ?_, ?_⟩
  · intro kv hm
    simp only [List.mem_singleton] at hm
    rw [hm]
    rfl
  · exact (c7_arguments_not_mutated ⟨[], []⟩ 0 [("color", StyleVal.strV "red")]
      ⟨[], []⟩ 0 [("a", AttrVal.strV "b")]).1
  · exact (c7_arguments_not_mutated ⟨[], []⟩ 0 [("color", StyleVal.strV "red")]
      ⟨[], []⟩ 0 [("a", AttrVal.strV "b")]).2
      (by intro kv hm; simp only [List.mem_singleton] at hm; rw [hm]; rfl)

/-- C3 counterexample: for duplicate id tokens the claim says the last
occurrence wins, but the id regex is non-global and `String.match` returns
its first match: on `"x#a#b"` the recorded id is `"a"`, not `"b"`. -/
theorem c3_first_id_wins_counterexample :
    (selectorToComponents "x#a#b").id = some "a" ∧
    (some "a" : Option String) ≠ some "b" := by
  exact ⟨by decide, by decide⟩

/-- C3 (amended): for repeated bracketed attributes with the same name the
value of the last regex match is the one recorded (object assignment in
match order), but for repeated id tokens the FIRST match wins: the recorded
id is the head, not the last element, of the list of all id-regex matches of
the attribute-stripped, tag-stripped selector. -/
theorem c3_last_attribute_wins_first_id_wins :
    (∀ s : String, (selectorToComponents s).id =
      ((collectIds (afterTagOf s.data)).head?).map String.mk) ∧
    (∀ s name : String,
      lookupKV (selectorToComponents s).attributes name =
        lastAssign (attrPairsOf s.data) name) := by
  constructor
  · intro s
    simp only [selectorToComponents, selectorToComponentsL,
      findIdMatch_eq_head_collectIds]
  · intro s name
    show lookupKV (selectorToComponentsL s.data).attributes name = _
    rw [selectorToComponents_attributes_eq_foldAssign, lookupKV_foldAssign]
    cases lastAssign (attrPairsOf s.data) name <;> rfl

/-- C10 counterexample: `"-x"` does not begin with a word character, so the
claim predicts the default tag name `"div"`, but the tag-name regex is
`^[\w-]+` (hyphen included) and matches `-x`, which becomes the tag name. -/
theorem c10_default_tag_counterexample :
    (selectorToComponents "-x").tagName = "-x" ∧ ("-x" : String) ≠ "div" := by
  exact ⟨by decide, by decide⟩

/-- C10 (amended): for every selector whose attribute-stripped form does not
begin with a word character or hyphen, `selectorToComponents` returns tag
name `"div"`; correspondingly, whenever the attribute-stripped element
definition of a selector does not begin with a word character or hyphen,
`make` passes `"div"` to `document.createElement`. -/
theorem c10_default_tag_div :
    ∀ s : String,
    (headIsWordHyphen (strippedOf s.data) = false →
      (selectorToComponents s).tagName = "div") ∧
    (headIsWordHyphen
        (strippedOf (resolveRelativeElement s).elementDefinition.data) = false →
      makeTagName s = "div") := by
  intro s
  constructor
  · intro h
    exact tagName_div_of_head_not_word s.data h
  · intro h
    exact tagName_div_of_head_not_word _ h

/-- Witness for C10 at the claim's own example `"#myId.cls"`: the stripped
selector starts with `#`, so both the parser and `make` fall back to `div`. -/
theorem c10_default_tag_div_witness :
    headIsWordHyphen (strippedOf ("#myId.cls" : String).data) = false ∧
    headIsWordHyphen
      (strippedOf (resolveRelativeElement "#myId.cls").elementDefinition.data) =
        false ∧
    (selectorToComponents "#myId.cls").tagName = "div" ∧
    makeTagName "#myId.cls" = "div" := by
  refine ⟨by decide, by decide,
    (c10_default_tag_div "#myId.cls").1 (by decide),
    (c10_default_tag_div "#myId.cls").2 (by decide)⟩

/-- C2: selector parsing round-trips on the supported form.  For every
selector built as `tag#id.class1...classN[n1="v1"]...[nk="vk"]` from a
nonempty `[\w-]` tag, an optional nonempty `[\w-]` id, any number of
nonempty `[\w-]` classes, and bracketed exact-match attributes with
pairwise-distinct nonempty `[\w-]` names and nonempty quote-, bracket- and
newline-free values, `util.selectorToComponents` returns exactly the tag
name, the id, the class list in order of appearance, and the map of
attribute name/value pairs. -/
theorem c2_selector_roundtrip :
    ∀ (tag : List Char) (ident : Option (List Char)) (cls : List (List Char))
      (attrs : List (List Char × List Char)),
    wordHyphenStr tag →
    (∀ i, ident = some i → wordHyphenStr i) →
    (∀ cl ∈ cls, wordHyphenStr cl) →
    (∀ nv ∈ attrs, wordHyphenStr nv.1) →
    (∀ nv ∈ attrs, attrValueOk nv.2) →
    (attrs.map Prod.fst).Nodup →
    selectorToComponents (String.mk (mkSelectorL tag ident cls attrs)) =
      ⟨String.mk tag, ident.map String.mk, cls.map String.mk,
       attrs.map (fun nv => (String.mk nv.1, String.mk nv.2))⟩ := by
  intro tag ident cls attrs h1 h2 h3 h4 h5 h6
  show selectorToComponentsL (String.mk (mkSelectorL tag ident cls attrs)).data = _
  exact selectorToComponentsL_mkSelector tag ident cls attrs h1 h2 h3 h4 h5 h6

/-- Witness for C2 at the concrete supported selector
`input#main.a.b[type="text"][data-x="1"]`. -/
theorem c2_selector_roundtrip_witness :
    wordHyphenStr "input".data ∧
    (∀ i, (some "main".data : Option (List Char)) = some i → wordHyphenStr i) ∧
    (∀ cl ∈ ["a".data, "b".data], wordHyphenStr cl) ∧
    (∀ nv ∈ [("type".data, "text".data), ("data-x".data, "1".data)],
      wordHyphenStr nv.1) ∧
    (∀ nv ∈ [("type".data, "text".data), ("data-x".data, "1".data)],
      attrValueOk nv.2) ∧
    (([("type".data, "text".data), ("data-x".data, "1".data)].map
      Prod.fst).Nodup) ∧
    selectorToComponents "input#main.a.b[type=\"text\"][data-x=\"1\"]" =
      ⟨"input", some "main", ["a", "b"], [("type", "text"), ("data-x", "1")]⟩ := by
  have hh1 : wordHyphenStr "input".data := ⟨by decide, by decide⟩
  have hh2 : ∀ i, (some "main".data : Option (List Char)) = some i →
      wordHyphenStr i := by
    intro i hi
    injection hi with h
    rw [← h]
    exact ⟨by decide, by decide⟩
  have hh3 : ∀ cl ∈ ["a".data, "b".data], wordHyphenStr cl := by
    intro cl hcl
    rcases List.mem_cons.mp hcl with h | h
    · rw [h]; exact ⟨by decide, by decide⟩
    rcases List.mem_cons.mp h with h | h
    · rw [h]; exact ⟨by decide, by decide⟩
    · simp at h
  have hh4 : ∀ nv ∈ [("type".data, "text".data), ("data-x".data, "1".data)],
      wordHyphenStr nv.1 := by
    intro nv hnv
    rcases List.mem_cons.mp hnv with h | h
    · rw [h]; exact ⟨by decide, by decide⟩
    rcases List.mem_cons.mp h with h | h
    · rw [h]; exact ⟨by decide, by decide⟩
    · simp at h
  have hh5 : ∀ nv ∈ [("type".data, "text".data), ("data-x".data, "1".data)],
      attrValueOk nv.2 := by
    intro nv hnv
    rcases List.mem_cons.mp hnv with h | h
    · rw [h]; exact ⟨by decide, by decide⟩
    rcases List.mem_cons.mp h with h | h
    · rw [h]; exact ⟨by decide, by decide⟩
    · simp at h
  have hh6 : (([("type".data, "text".data), ("data-x".data, "1".data)].map
      Prod.fst).Nodup) := by decide
  have h := c2_selector_roundtrip "input".data (some "main".data)
    ["a".data, "b".data] [("type".data, "text".data), ("data-x".data, "1".data)]
    hh1 hh2 hh3 hh4 hh5 hh6
  have hsel : String.mk (mkSelectorL "input".data (some "main".data)
      ["a".data, "b".data]
      [("type".data, "text".data), ("data-x".data, "1".data)]) =
      "input#main.a.b[type=\"text\"][data-x=\"1\"]" := by decide
  have hres : (⟨String.mk "input".data, (some "main".data).map String.mk,
      (["a".data, "b".data]).map String.mk,
      ([("type".data, "text".data), ("data-x".data, "1".data)]).map
        (fun nv => (String.mk nv.1, String.mk nv.2))⟩ : Components) =
      ⟨"input", some "main", ["a", "b"], [("type", "text"), ("data-x", "1")]⟩ := by
    decide
  rw [hsel, hres] at h
  exact ⟨hh1, hh2, hh3, hh4, hh5, hh6, h⟩
